import Mathlib

/-!
Verification development for the conversation-state and streaming-completion
subsystem of the mcp-chat-adapter server.  The TypeScript sources are shallowly
embedded: JavaScript strings are Lean strings (lists of characters), JavaScript
numbers are rationals, the storage directory is an association list from file
names to file contents, and every effectful routine is a pure function that
threads the relevant state explicitly.
-/

namespace Mca

/-! ## JSON values (the image of JSON.parse / JSON.stringify) -/

/-- A JSON value, as produced by JSON.parse.  Numbers are modelled as exact
rationals; an object is an ordered list of key/value fields, matching the
insertion order that JSON.stringify preserves. -/
inductive Json : Type where
  | null : Json
  | bool : Bool → Json
  | num : Rat → Json
  | str : String → Json
  | arr : List Json → Json
  | obj : List (String × Json) → Json

/-- Field access on a JSON object: the first field with the given key. -/
def fieldGet : List (String × Json) → String → Option Json
  | [], _ => none
  | (k, v) :: fs, key => if k = key then some v else fieldGet fs key

def Json.asStr : Json → Option String
  | .str s => some s
  | _ => none

def Json.asNum : Json → Option Rat
  | .num q => some q
  | _ => none

def jLookup (j : Json) (k : String) : Option Json :=
  match j with
  | .obj fs => fieldGet fs k
  | _ => none

/-! ## Decimal strings: the model of JavaScript String(n) and parseInt(s, 10) -/

/-- The character for a single decimal digit, as in JavaScript number printing. -/
def digitChar (d : Nat) : Char := Char.ofNat (48 + d)

/-- Decimal digit characters of a natural number, most significant first,
computed with structural fuel (the fuel is always taken larger than the
number, see natToChars). -/
def natToCharsGo : Nat → Nat → List Char
  | 0, _ => []
  | fuel + 1, n => if n < 10 then [digitChar n] else natToCharsGo fuel (n / 10) ++ [digitChar (n % 10)]

/-- Decimal representation of a natural number, the model of String(n) for
a non-negative integral JavaScript number. -/
def natToChars (n : Nat) : List Char := natToCharsGo (n + 1) n

def natToString (n : Nat) : String := ⟨natToChars n⟩

/-- The model of String(v) for an integral JavaScript number. -/
def intToString (v : Int) : String :=
  if v < 0 then "-" ++ natToString (-v).toNat else natToString v.toNat

/-- Numeric value of a list of decimal digit characters, exactly the
accumulation a radix-10 integer parse performs. -/
def charsVal (ds : List Char) : Nat := ds.foldl (fun a c => a * 10 + (c.toNat - 48)) 0

/-- The model of JavaScript parseInt(s, 10): skip leading whitespace, accept an
optional sign, then read the maximal run of decimal digits; the result is NaN
(here: none) when that run is empty. -/
def jsParseInt (s : List Char) : Option Int :=
  let t := s.dropWhile Char.isWhitespace
  let sign : Int := if t.head? = some '-' then -1 else 1
  let u := if t.head? = some '-' ∨ t.head? = some '+' then t.tail else t
  let ds := u.takeWhile Char.isDigit
  if ds.isEmpty then none else some (sign * (charsVal ds : Int))

/-- The test performed at src/unnamed/part_001 lines 563-566: parseInt the
base name and accept it only when rendering the parsed value reproduces the
base name exactly, so leading zeros, signs, whitespace and trailing junk are
all rejected. -/
def parsedCanonicalId (s : String) : Option Int :=
  match jsParseInt s.data with
  | none => none
  | some v => if intToString v = s then some v else none

/-! ## The storage directory -/

/-- Contents of one file in the conversation directory: none models text that
is not valid JSON (JSON.parse throws), some j models text parsing to j. -/
abbrev FileText := Option Json

/-- The storage directory: an association list from file name to contents. -/
abbrev Dir := List (String × FileText)

def dirLookup : Dir → String → Option FileText
  | [], _ => none
  | (g, t) :: rest, f => if g = f then some t else dirLookup rest f

def dirWrite : Dir → String → FileText → Dir
  | [], f, t => [(f, t)]
  | (g, u) :: rest, f, t => if g = f then (f, t) :: rest else (g, u) :: dirWrite rest f t

def dirErase : Dir → String → Dir
  | [], _ => []
  | (g, u) :: rest, f => if g = f then rest else (g, u) :: dirErase rest f

/-- File names of the directory, as returned by fs.readdir. -/
def dirFiles (d : Dir) : List String := d.map Prod.fst

/-- The model of JavaScript String.prototype.endsWith. -/
def strEndsWith (s pat : String) : Bool := pat.data.isSuffixOf s.data

/-- The model of path.basename(file, ".json") for a file name that passed the
endsWith(".json") filter: drop the five suffix characters. -/
def stripJsonExt (f : String) : String := ⟨f.data.take (f.data.length - 5)⟩

/-- getConversationFilePath (src/unnamed/part_001 lines 464-466), with the
directory part abstracted away: the file keyed by a conversation id. -/
def convFileName (id : String) : String := id ++ ".json"

/-- getNextConversationId (src/unnamed/part_001 lines 553-576): keep the
.json files, parse each base name with the canonical-rendering check, take the
maximum parsed value (starting from 0), and render one more than it. -/
def getNextConversationId (d : Dir) : String :=
  let jsonFiles := (dirFiles d).filter (fun f => strEndsWith f ".json")
  let highestId : Int := jsonFiles.foldl
    (fun h f =>
      match parsedCanonicalId (stripJsonExt f) with
      | some v => max h v
      | none => h) 0
  intToString (highestId + 1)

/-! ## Data model (src/src/types.ts) -/

/-- Message roles used by the subsystem. -/
inductive Role : Type where
  | system : Role
  | user : Role
  | assistant : Role
deriving DecidableEq

/-- One chat message (ChatCompletionMessageParam restricted to the fields the
subsystem produces and consumes). -/
structure Message : Type where
  role : Role
  content : String
deriving DecidableEq

/-- The five numeric sampling controls.  JavaScript numbers are modelled as
exact rationals. -/
structure Params : Type where
  temperature : Rat
  max_tokens : Rat
  top_p : Rat
  frequency_penalty : Rat
  presence_penalty : Rat
deriving DecidableEq

/-- The Conversation record (types.ts lines 17-35).  The open metadata object
is kept as an ordered list of JSON fields. -/
structure Conversation : Type where
  id : String
  model : String
  created_at : String
  updated_at : String
  parameters : Params
  messages : List Message
  metadata : Option (List (String × Json))

/-- ConversationMetadata (types.ts lines 38-49): the listing projection. -/
structure ConversationMetadata : Type where
  id : String
  model : String
  created_at : String
  updated_at : String
  message_count : Nat
  metadata : Option (List (String × Json))

/-- The error taxonomy relevant to the verified claims: the storage error
(ConversationStorageError), the missing-conversation error carrying the id
(ConversationNotFoundError), the creation error (ConversationCreateError) and
the failure of the remote streaming call (timeout, abort or network error). -/
inductive Err : Type where
  | storage : Err
  | notFound : String → Err
  | createErr : Err
  | remote : Err
deriving DecidableEq

/-! ## Serialization: JSON.stringify of a Conversation and the parse back -/

def encodeRole : Role → String
  | .system => "system"
  | .user => "user"
  | .assistant => "assistant"

def decodeRole (s : String) : Option Role :=
  if s = "system" then some .system
  else if s = "user" then some .user
  else if s = "assistant" then some .assistant
  else none

def encodeMessage (m : Message) : Json :=
  .obj [("role", .str (encodeRole m.role)), ("content", .str m.content)]

def decodeMessage (j : Json) : Option Message := do
  let r ← (jLookup j "role").bind Json.asStr
  let role ← decodeRole r
  let content ← (jLookup j "content").bind Json.asStr
  pure ⟨role, content⟩

def decodeMsgList : List Json → Option (List Message)
  | [] => some []
  | j :: js => do
    let m ← decodeMessage j
    let ms ← decodeMsgList js
    pure (m :: ms)

def decodeMessages (j : Json) : Option (List Message) :=
  match j with
  | .arr xs => decodeMsgList xs
  | _ => none

def encodeParams (p : Params) : Json :=
  .obj [("temperature", .num p.temperature),
        ("max_tokens", .num p.max_tokens),
        ("top_p", .num p.top_p),
        ("frequency_penalty", .num p.frequency_penalty),
        ("presence_penalty", .num p.presence_penalty)]

def decodeParams (j : Json) : Option Params := do
  let t ← (jLookup j "temperature").bind Json.asNum
  let mt ← (jLookup j "max_tokens").bind Json.asNum
  let tp ← (jLookup j "top_p").bind Json.asNum
  let fp ← (jLookup j "frequency_penalty").bind Json.asNum
  let pp ← (jLookup j "presence_penalty").bind Json.asNum
  pure ⟨t, mt, tp, fp, pp⟩

/-- JSON.stringify(conversation) (field order as in the record; an undefined
metadata field is omitted, as JSON.stringify does). -/
def encodeConversation (c : Conversation) : Json :=
  .obj ([("id", .str c.id),
         ("model", .str c.model),
         ("created_at", .str c.created_at),
         ("updated_at", .str c.updated_at),
         ("parameters", encodeParams c.parameters),
         ("messages", .arr (c.messages.map encodeMessage))] ++
        (match c.metadata with
         | some m => [("metadata", .obj m)]
         | none => []))

/-- JSON.parse(data) as Conversation: the parsed JSON viewed as a
Conversation record.  A JSON value in which the expected fields are missing or
of the wrong shape does not yield a record. -/
def decodeConversation (j : Json) : Option Conversation := do
  let id ← (jLookup j "id").bind Json.asStr
  let model ← (jLookup j "model").bind Json.asStr
  let ca ← (jLookup j "created_at").bind Json.asStr
  let ua ← (jLookup j "updated_at").bind Json.asStr
  let ps ← (jLookup j "parameters").bind decodeParams
  let ms ← (jLookup j "messages").bind decodeMessages
  let md : Option (List (String × Json)) :=
    match jLookup j "metadata" with
    | some (.obj m) => some m
    | _ => none
  pure ⟨id, model, ca, ua, ps, ms, md⟩

/-! ## Store operations (src/unnamed/part_001 lines 453-576) -/

/-- readConversation (lines 471-479): read the file keyed by the id and parse
it; any failure (absent file, text that is not JSON, JSON that is not a
conversation record) is wrapped into ConversationStorageError. -/
def readConversation (d : Dir) (id : String) : Except Err Conversation :=
  match dirLookup d (convFileName id) with
  | none => .error .storage
  | some none => .error .storage
  | some (some j) =>
    match decodeConversation j with
    | some c => .ok c
    | none => .error .storage

/-- writeConversation (lines 484-493): serialize the record and overwrite the
file keyed by its id. -/
def writeConversation (d : Dir) (c : Conversation) : Dir :=
  dirWrite d (convFileName c.id) (some (encodeConversation c))

def toMetadata (c : Conversation) : ConversationMetadata :=
  ⟨c.id, c.model, c.created_at, c.updated_at, c.messages.length, c.metadata⟩

/-- The model of new Date(s).getTime(): an order embedding of timestamps into
integers.  Timestamps in this development are decimal strings, whose
chronological order is their numeric order, matching the fact that the
Date-value order of ISO-8601 strings agrees with their field-wise order. -/
def dateMs (s : String) : Int := (jsParseInt s.data).getD 0

/-- Stable insertion of one metadata entry into a list sorted by updated_at
descending: walk past strictly newer entries, so that entries with equal
timestamps keep their original relative order, as the stable Array.sort
with comparator b - a does. -/
def insertByUpdatedDesc (m : ConversationMetadata) : List ConversationMetadata → List ConversationMetadata
  | [] => [m]
  | x :: xs =>
    if dateMs m.updated_at < dateMs x.updated_at then x :: insertByUpdatedDesc m xs
    else m :: x :: xs

def sortByUpdatedDesc (l : List ConversationMetadata) : List ConversationMetadata :=
  l.foldr insertByUpdatedDesc []

/-- listConversations (lines 498-532): enumerate the .json files, read each,
skip any file that fails to read, and sort by updated_at newest first. -/
def listConversationsStore (d : Dir) : List ConversationMetadata :=
  let jsonFiles := (dirFiles d).filter (fun f => strEndsWith f ".json")
  let metadataList := jsonFiles.filterMap (fun f =>
    match readConversation d (stripJsonExt f) with
    | .ok c => some (toMetadata c)
    | .error _ => none)
  sortByUpdatedDesc metadataList

/-- deleteConversation at the store level (lines 537-544): fs.unlink, which
fails exactly when the file is absent; the failure is wrapped into
ConversationStorageError. -/
def deleteConversationStore (d : Dir) (id : String) : Except Err Dir :=
  match dirLookup d (convFileName id) with
  | some _ => .ok (dirErase d (convFileName id))
  | none => .error .storage

/-! ## ConversationManager (src/unnamed/part_000 lines 490-640) -/

/-- The in-memory cache: the private Map from conversation id to record. -/
abbrev Cache := List (String × Conversation)

def cacheGet : Cache → String → Option Conversation
  | [], _ => none
  | (k, c) :: rest, id => if k = id then some c else cacheGet rest id

def cacheSet : Cache → String → Conversation → Cache
  | [], id, c => [(id, c)]
  | (k, u) :: rest, id, c => if k = id then (id, c) :: rest else (k, u) :: cacheSet rest id c

def cacheDel : Cache → String → Cache
  | [], _ => []
  | (k, u) :: rest, id => if k = id then rest else (k, u) :: cacheDel rest id

/-- The state a ConversationManager instance acts on: its cache plus the
storage directory. -/
structure MgrState : Type where
  cache : Cache
  dir : Dir

def emptyState : MgrState := ⟨[], []⟩

/-- getConversation (part_000 lines 556-574): cached copy if present, else
read through the store and populate the cache; any store failure is reported
as ConversationNotFoundError carrying the id. -/
def getConversation (st : MgrState) (id : String) : Except Err (Conversation × MgrState) :=
  match cacheGet st.cache id with
  | some c => .ok (c, st)
  | none =>
    match readConversation st.dir id with
    | .ok c => .ok (c, { st with cache := cacheSet st.cache id c })
    | .error _ => .error (.notFound id)

/-- updateConversation (part_000 lines 579-593): stamp updated_at, set the
cache entry, then write to disk.  The cache is set before the write, so a
failing write (writeOk = false) leaves the new record in the cache; the
failure surfaces as ConversationStorageError. -/
def updateConversation (st : MgrState) (c : Conversation) (now : String) (writeOk : Bool) :
    Except Err Conversation × MgrState :=
  let c2 := { c with updated_at := now }
  let st1 := { st with cache := cacheSet st.cache c2.id c2 }
  if writeOk then (.ok c2, { st1 with dir := writeConversation st1.dir c2 })
  else (.error .storage, st1)

/-- addMessage (part_000 lines 598-608): load via getConversation, push the
message onto the record (the push mutates the cached object), then
updateConversation.  Returns the mutated record. -/
def addMessage (st : MgrState) (id : String) (role : Role) (content now : String) (writeOk : Bool) :
    Except Err Conversation × MgrState :=
  match getConversation st id with
  | .error e => (.error e, st)
  | .ok (c, st1) =>
    let c1 := { c with messages := c.messages ++ [⟨role, content⟩] }
    updateConversation st1 c1 now writeOk

/-- deleteConversation at the manager level (part_000 lines 625-639): evict
from the cache unconditionally, then attempt the store deletion; a store
failure is swallowed and reported as the boolean false. -/
def deleteConversationMgr (st : MgrState) (id : String) : Bool × MgrState :=
  let st1 := { st with cache := cacheDel st.cache id }
  match deleteConversationStore st1.dir id with
  | .ok d2 => (true, { st1 with dir := d2 })
  | .error _ => (false, st1)

/-! ## Process-wide configuration (src/src/constants.ts)

Each constant is an environment variable with a fallback; a run of the process
fixes their values, collected here in a record.  The fallback for the default
system prompt is reached through the JavaScript or-else operator, so the
resolved prompt is never the empty string. -/

structure Config : Type where
  defaultModel : String
  defaultSystemPrompt : String
  defaults : Params

/-- The configuration with every environment variable unset: the literal
fallbacks of constants.ts. -/
def defaultConfig : Config :=
  { defaultModel := "gpt-4o-mini",
    defaultSystemPrompt := "You are a helpful assistant.",
    defaults := ⟨7/10, 50000, 1, 0, 0⟩ }

/-- The JavaScript expression a || b on an optional string: the fallback is
taken when a is undefined and also when a is the empty string (falsy). -/
def jsOr (a : Option String) (b : String) : String :=
  match a with
  | some s => if s = "" then b else s
  | none => b

/-! ## create_conversation (src/unnamed/part_001 lines 127-172 and
ConversationManager.createConversation, part_000 lines 504-551) -/

/-- The five sampling controls as they arrive from the caller: each field may
be absent. -/
structure RawParams : Type where
  temperature : Option Rat
  max_tokens : Option Rat
  top_p : Option Rat
  frequency_penalty : Option Rat
  presence_penalty : Option Rat
deriving DecidableEq

def RawParams.empty : RawParams := ⟨none, none, none, none, none⟩

/-- Caller-supplied arguments of the create_conversation tool before schema
parsing. -/
structure RawCreateArgs : Type where
  model : Option String
  system_prompt : Option String
  parameters : Option RawParams
  metadata : Option (List (String × Json))

/-- Arguments as they reach ConversationManager.createConversation. -/
structure CreateArgs : Type where
  model : Option String
  system_prompt : Option String
  parameters : Option RawParams
  metadata : Option (List (String × Json))

/-- The parse of createConversationSchema (part_001 lines 127-141): zod
substitutes the declared default for every absent field, so system_prompt
becomes the process default prompt, the parameters object becomes fully
populated with the literal defaults 0.7, 1000, 1.0, 0.0, 0.0, and metadata
becomes the empty object.  The range checks reject out-of-range numbers
before the tool body runs and are not modelled. -/
def zodParseCreate (cfg : Config) (raw : RawCreateArgs) : CreateArgs :=
  let p := raw.parameters.getD RawParams.empty
  { model := raw.model,
    system_prompt := some (raw.system_prompt.getD cfg.defaultSystemPrompt),
    parameters := some
      { temperature := some (p.temperature.getD (7/10)),
        max_tokens := some (p.max_tokens.getD 1000),
        top_p := some (p.top_p.getD 1),
        frequency_penalty := some (p.frequency_penalty.getD 0),
        presence_penalty := some (p.presence_penalty.getD 0) },
    metadata := some (raw.metadata.getD []) }

/-- createConversation (part_000 lines 504-551): resolve the model, fill each
sampling control from the arguments or the literal default, seed the messages
with a system message when the system prompt is truthy, allocate the next
sequential id, set the cache, then write to disk.  The cache is set before
the write; a failing allocation or write surfaces as
ConversationCreateError. -/
def createConversation (cfg : Config) (st : MgrState) (args : CreateArgs) (now : String)
    (writeOk : Bool) : Except Err Conversation × MgrState :=
  let model := jsOr args.model cfg.defaultModel
  let parameters : Params :=
    { temperature := (args.parameters.bind (·.temperature)).getD (7/10),
      max_tokens := (args.parameters.bind (·.max_tokens)).getD 1000,
      top_p := (args.parameters.bind (·.top_p)).getD 1,
      frequency_penalty := (args.parameters.bind (·.frequency_penalty)).getD 0,
      presence_penalty := (args.parameters.bind (·.presence_penalty)).getD 0 }
  let messages : List Message :=
    match args.system_prompt with
    | some s => if s = "" then [] else [⟨.system, s⟩]
    | none => []
  let id := getNextConversationId st.dir
  let c : Conversation := ⟨id, model, now, now, parameters, messages, args.metadata⟩
  let st1 := { st with cache := cacheSet st.cache id c }
  if writeOk then (.ok c, { st1 with dir := writeConversation st1.dir c })
  else (.error .createErr, st1)

/-- The create_conversation tool body (part_001 lines 146-172): parse the
arguments, resolve the model against the server default, and call the
manager. -/
def createTool (cfg : Config) (st : MgrState) (raw : RawCreateArgs) (now : String)
    (writeOk : Bool) : Except Err Conversation × MgrState :=
  let a := zodParseCreate cfg raw
  createConversation cfg st
    { a with model := some (jsOr a.model cfg.defaultModel) } now writeOk

/-! ## The chat tool (src/unnamed/part_001 lines 191-306) -/

/-- The parse of chatSchema (lines 191-201): zod substitutes the declared
default for every absent field, and the declared defaults of the chat schema
are the process-wide constants DEFAULT_TEMPERATURE, DEFAULT_MAX_TOKENS,
DEFAULT_TOP_P, DEFAULT_FREQUENCY_PENALTY, DEFAULT_PRESENCE_PENALTY.  The
parsed parameters object therefore has every field present. -/
def zodParseChatParams (cfg : Config) (raw : Option RawParams) : RawParams :=
  let r := raw.getD RawParams.empty
  { temperature := some (r.temperature.getD cfg.defaults.temperature),
    max_tokens := some (r.max_tokens.getD cfg.defaults.max_tokens),
    top_p := some (r.top_p.getD cfg.defaults.top_p),
    frequency_penalty := some (r.frequency_penalty.getD cfg.defaults.frequency_penalty),
    presence_penalty := some (r.presence_penalty.getD cfg.defaults.presence_penalty) }

/-- The chatParams object (lines 231-237): each field of the parsed
parameters, or-else the stored conversation parameter. -/
def resolveChatParams (p : RawParams) (conv : Params) : Params :=
  { max_tokens := p.max_tokens.getD conv.max_tokens,
    temperature := p.temperature.getD conv.temperature,
    top_p := p.top_p.getD conv.top_p,
    frequency_penalty := p.frequency_penalty.getD conv.frequency_penalty,
    presence_penalty := p.presence_penalty.getD conv.presence_penalty }

/-- Outcome of the streaming completion call: either the stream delivers its
chunks and ends, or it fails (timeout, abort, network error) after delivering
some prefix of chunks.  Each chunk is the content fragment of one delta
(an absent delta content reads as the empty string). -/
inductive StreamResult : Type where
  | ok : List String → StreamResult
  | failAfter : List String → StreamResult
deriving DecidableEq

/-- The oracle for one execution of the chat tool: the outcome of the remote
stream, and whether each of the two disk writes performed by the turn
succeeds. -/
structure ChatEnv : Type where
  stream : StreamResult
  userWriteOk : Bool
  assistantWriteOk : Bool
deriving DecidableEq

/-- Observable events of one chat turn, in order of occurrence: a progress
report, the durable append of the user message, the invocation of the remote
streaming call (with the model, message history and sampling parameters it
carries), and the durable append of the assistant message. -/
inductive Event : Type where
  | progress : Nat → Event
  | appendUser : String → Event
  | remoteCall : String → List Message → Params → Event
  | appendAssistant : String → Event
deriving DecidableEq

/-- One step of the streaming progress counter (lines 269-280): while under
80 the counter advances by one per chunk, and the new value is reported when
it is under 40 or a multiple of five. -/
def tickStep (c : Nat) : Nat × Option Nat :=
  if c < 80 then
    let c1 := c + 1
    (c1, if c1 < 40 || c1 % 5 == 0 then some c1 else none)
  else (c, none)

/-- The for-await loop over the stream (lines 263-281): accumulate the
assistant text and produce the reported progress values. -/
def streamFold : List String → Nat → String → Nat × String × List Event
  | [], c, acc => (c, acc, [])
  | chunk :: rest, c, acc =>
    let s := tickStep c
    let evs : List Event := match s.2 with | some p => [.progress p] | none => []
    let r := streamFold rest s.1 (acc ++ chunk)
    (r.1, r.2.1, evs ++ r.2.2)

/-- The chat tool body (lines 216-304).  In order: report progress 0, load the
conversation, append the user message (aborting the turn on failure), resolve
the sampling parameters from the parsed per-turn parameters with the stored
conversation parameters as fallback, open the streaming call carrying the
model, the full mutated message history and the resolved parameters, fold the
stream into progress ticks and the accumulated text, report 80 at stream end,
append the assistant message, report 100, and return the text.  A stream
failure throws out of the loop: the accumulated text is discarded and no
assistant append happens.  Every failure surfaces as the error result. -/
def chatExec (cfg : Config) (env : ChatEnv) (st : MgrState) (id msg : String)
    (rawParams : Option RawParams) (now : String) :
    Except Err String × MgrState × List Event :=
  let ev0 : List Event := [.progress 0]
  match getConversation st id with
  | .error e => (.error e, st, ev0)
  | .ok (conv, st1) =>
    match addMessage st1 conv.id .user msg now env.userWriteOk with
    | (.error e, st2) => (.error e, st2, ev0)
    | (.ok conv2, st2) =>
      let p := zodParseChatParams cfg rawParams
      let chatParams := resolveChatParams p conv.parameters
      let evR := ev0 ++ [.appendUser msg, .remoteCall conv.model conv2.messages chatParams]
      match env.stream with
      | .failAfter recv =>
        let r := streamFold recv 30 ""
        (.error .remote, st2, evR ++ r.2.2)
      | .ok chunks =>
        let r := streamFold chunks 30 ""
        let assistantMessage := r.2.1
        let ev80 := evR ++ r.2.2 ++ [.progress 80]
        match addMessage st2 conv.id .assistant assistantMessage now env.assistantWriteOk with
        | (.error e, st3) => (.error e, st3, ev80)
        | (.ok _, st3) =>
          (.ok assistantMessage, st3,
            ev80 ++ [.appendAssistant assistantMessage, .progress 100])

/-! ## The conversation management tools (src/unnamed/part_001 lines 36-117) -/

/-- Filter criteria of the list_conversations tool. -/
structure ListFilter : Type where
  tags : Option (List String)
  created_after : Option String
  created_before : Option String

/-- The tags of a metadata object as the tag filter reads them
(conv.metadata?.tags, a string array). -/
def strList : List Json → Option (List String)
  | [] => some []
  | j :: js => do
    let s ← j.asStr
    let ss ← strList js
    pure (s :: ss)

def metadataTags (md : Option (List (String × Json))) : Option (List String) :=
  md.bind (fun m =>
    match fieldGet m "tags" with
    | some (.arr xs) => strList xs
    | _ => none)

/-- The list_conversations tool body (lines 45-85): take the store listing,
apply the tag filter, then the inclusive created_after and created_before
filters, then slice(offset, offset + limit) with offset defaulting to 0 and
limit defaulting to the filtered length. -/
def listConversationsTool (st : MgrState) (filter : Option ListFilter)
    (limit offset : Option Nat) : List ConversationMetadata :=
  let conversations := listConversationsStore st.dir
  let conversations :=
    match filter with
    | none => conversations
    | some f =>
      let cs :=
        match f.tags with
        | some ts => conversations.filter (fun (conv : ConversationMetadata) =>
            match metadataTags conv.metadata with
            | some mts => mts.any (fun tag => ts.contains tag)
            | none => false)
        | none => conversations
      let cs :=
        match f.created_after with
        | some a => cs.filter (fun (conv : ConversationMetadata) => dateMs a ≤ dateMs conv.created_at)
        | none => cs
      match f.created_before with
      | some b => cs.filter (fun (conv : ConversationMetadata) => dateMs conv.created_at ≤ dateMs b)
      | none => cs
  let offsetValue := offset.getD 0
  let limitValue := limit.getD conversations.length
  (conversations.drop offsetValue).take limitValue

/-- The delete_conversation tool body (lines 104-116): call the manager and
discard its boolean result, returning the fixed confirmation string. -/
def deleteTool (st : MgrState) (id : String) : String × MgrState :=
  let r := deleteConversationMgr st id
  ("Conversation deleted", r.2)

/-! ## Reachable states: create followed by chat turns -/

/-- One public operation of the subsystem relevant to reachability: a
create_conversation call or a chat turn. -/
inductive Op : Type where
  | create : RawCreateArgs → String → Bool → Op
  | chat : ChatEnv → String → String → Option RawParams → String → Op

def runOp (cfg : Config) (st : MgrState) : Op → MgrState
  | .create raw now writeOk => (createTool cfg st raw now writeOk).2
  | .chat env id msg raw now => (chatExec cfg env st id msg raw now).2.1

def runOps (cfg : Config) (ops : List Op) : MgrState :=
  ops.foldl (runOp cfg) emptyState

/-! ## Arithmetic of decimal strings -/

lemma isDigit_bounds {c : Char} (h : c.isDigit = true) : 48 ≤ c.toNat ∧ c.toNat ≤ 57 := by
  simp [Char.isDigit] at h
  exact ⟨h.1, h.2⟩

lemma digitChar_toNat {d : Nat} (h : d < 10) : (digitChar d).toNat = 48 + d := by
  interval_cases d <;> decide

lemma digitChar_isDigit {d : Nat} (h : d < 10) : (digitChar d).isDigit = true := by
  interval_cases d <;> decide

lemma digitChar_ne_zero {d : Nat} (h : d < 10) (h0 : d ≠ 0) : digitChar d ≠ '0' := by
  interval_cases d <;> simp_all <;> decide

lemma digitChar_round {c : Char} (h : c.isDigit = true) : digitChar (c.toNat - 48) = c := by
  obtain ⟨h1, h2⟩ := isDigit_bounds h
  have hv : 48 + (c.toNat - 48) = c.toNat := by omega
  have : digitChar (c.toNat - 48) = Char.ofNat c.toNat := by rw [digitChar, hv]
  rw [this, Char.ofNat_toNat]

lemma isDigit_not_ws {c : Char} (h : c.isDigit = true) : c.isWhitespace = false := by
  obtain ⟨h1, h2⟩ := isDigit_bounds h
  have hs : c ≠ ' ' ∧ c ≠ '\t' ∧ c ≠ '\x0d' ∧ c ≠ '\n' := by
    refine ⟨?_, ?_, ?_, ?_⟩ <;> (rintro rfl; exact absurd h1 (by decide))
  simp [Char.isWhitespace, hs.1, hs.2.1, hs.2.2.1, hs.2.2.2]

lemma isDigit_ne_minus {c : Char} (h : c.isDigit = true) : c ≠ '-' := by
  obtain ⟨h1, _⟩ := isDigit_bounds h
  rintro rfl
  exact absurd h1 (by decide)

lemma isDigit_ne_plus {c : Char} (h : c.isDigit = true) : c ≠ '+' := by
  obtain ⟨h1, _⟩ := isDigit_bounds h
  rintro rfl
  exact absurd h1 (by decide)

lemma charsVal_append (ds : List Char) (c : Char) :
    charsVal (ds ++ [c]) = charsVal ds * 10 + (c.toNat - 48) := by
  simp [charsVal, List.foldl_append]

lemma natToCharsGo_spec : ∀ fuel n, n < fuel →
    natToCharsGo fuel n ≠ [] ∧
    (∀ c ∈ natToCharsGo fuel n, c.isDigit = true) ∧
    charsVal (natToCharsGo fuel n) = n ∧
    (n ≠ 0 → (natToCharsGo fuel n).head? ≠ some '0') ∧
    (n = 0 → natToCharsGo fuel n = ['0']) := by
  intro fuel
  induction fuel with
  | zero => intro n h; omega
  | succ f ih =>
    intro n h
    by_cases h10 : n < 10
    · refine ⟨by simp [natToCharsGo, h10], ?_, ?_, ?_, ?_⟩
      · intro c hc
        simp [natToCharsGo, h10] at hc
        subst hc
        exact digitChar_isDigit h10
      · simp [natToCharsGo, h10, charsVal, digitChar_toNat h10]
      · intro hn
        simp [natToCharsGo, h10]
        exact digitChar_ne_zero h10 hn
      · intro hn
        subst hn
        simp [natToCharsGo]
        decide
    · have hpos : 0 < n := by omega
      have hdiv : n / 10 < n := Nat.div_lt_self hpos (by omega)
      have hfuel : n / 10 < f := by omega
      obtain ⟨ihne, ihdig, ihval, ihhd, _⟩ := ih (n / 10) hfuel
      have hm : n % 10 < 10 := Nat.mod_lt _ (by omega)
      have hgo : natToCharsGo (f + 1) n = natToCharsGo f (n / 10) ++ [digitChar (n % 10)] := by
        simp [natToCharsGo, h10]
      refine ⟨by simp [hgo], ?_, ?_, ?_, ?_⟩
      · intro c hc
        rw [hgo] at hc
        rcases List.mem_append.mp hc with hc | hc
        · exact ihdig c hc
        · simp at hc; subst hc; exact digitChar_isDigit hm
      · rw [hgo, charsVal_append, ihval, digitChar_toNat hm]
        omega
      · intro _
        rw [hgo]
        rcases hl : natToCharsGo f (n / 10) with _ | ⟨a, t⟩
        · exact absurd hl ihne
        · have hdz : n / 10 ≠ 0 := by omega
          have := ihhd hdz
          rw [hl] at this
          simpa using this
      · intro hn; omega

lemma natToCharsGo_fuel : ∀ n f1 f2, n < f1 → n < f2 → natToCharsGo f1 n = natToCharsGo f2 n := by
  intro n
  induction n using Nat.strong_induction_on with
  | _ n ih =>
    intro f1 f2 h1 h2
    match f1, f2 with
    | fa + 1, fb + 1 =>
      by_cases h10 : n < 10
      · simp [natToCharsGo, h10]
      · have hpos : 0 < n := by omega
        have hdiv : n / 10 < n := Nat.div_lt_self hpos (by omega)
        simp only [natToCharsGo, if_neg h10]
        rw [ih (n / 10) hdiv fa fb (by omega) (by omega)]

lemma natToChars_ne_nil (n : Nat) : natToChars n ≠ [] :=
  (natToCharsGo_spec (n + 1) n (Nat.lt_succ_self n)).1

lemma natToChars_digits (n : Nat) : ∀ c ∈ natToChars n, c.isDigit = true :=
  (natToCharsGo_spec (n + 1) n (Nat.lt_succ_self n)).2.1

lemma charsVal_natToChars (n : Nat) : charsVal (natToChars n) = n :=
  (natToCharsGo_spec (n + 1) n (Nat.lt_succ_self n)).2.2.1

lemma natToChars_head {n : Nat} (h : n ≠ 0) : (natToChars n).head? ≠ some '0' :=
  (natToCharsGo_spec (n + 1) n (Nat.lt_succ_self n)).2.2.2.1 h

lemma natToChars_zero : natToChars 0 = ['0'] := by decide

lemma natToString_inj {a b : Nat} (h : natToString a = natToString b) : a = b := by
  have hd : natToChars a = natToChars b := congrArg String.data h
  have := charsVal_natToChars a
  rw [hd, charsVal_natToChars] at this
  omega

lemma charsVal_cons (c : Char) (t : List Char) :
    charsVal (c :: t) = List.foldl (fun a x => a * 10 + (x.toNat - 48)) (c.toNat - 48) t := by
  simp [charsVal]

lemma foldl_val_ge (t : List Char) : ∀ a : Nat, 1 ≤ a →
    1 ≤ List.foldl (fun a x => a * 10 + (x.toNat - 48)) a t := by
  induction t with
  | nil => intro a ha; simpa using ha
  | cons c t ih =>
    intro a ha
    have h2 : 1 ≤ a * 10 + (c.toNat - 48) := by omega
    simpa using ih _ h2

lemma charsVal_pos {ds : List Char} (hne : ds ≠ [])
    (hdig : ∀ c ∈ ds, c.isDigit = true) (h0 : ds.head? ≠ some '0') : 1 ≤ charsVal ds := by
  rcases ds with _ | ⟨c, t⟩
  · exact absurd rfl hne
  · have hc : c.isDigit = true := hdig c (by simp)
    obtain ⟨h1, h2⟩ := isDigit_bounds hc
    have hcz : c ≠ '0' := by
      intro h
      rw [h] at h0
      simp at h0
    have hv : 1 ≤ c.toNat - 48 := by
      rcases Nat.lt_or_ge 48 c.toNat with h | h
      · omega
      · have : c.toNat = 48 := by omega
        have : c = '0' := by
          have := Char.ofNat_toNat c
          rw [‹c.toNat = 48›] at this
          rw [← this]
        exact absurd this hcz
    rw [charsVal_cons]
    exact foldl_val_ge t _ hv

/-- The canonical decimal representations of natural numbers: non-empty, all
digits, and no leading zero except for the single digit zero itself. -/
def CanonicalDigits (ds : List Char) : Prop :=
  ds ≠ [] ∧ (∀ c ∈ ds, c.isDigit = true) ∧ (ds.head? = some '0' → ds = ['0'])

lemma natToChars_charsVal : ∀ ds : List Char, CanonicalDigits ds → natToChars (charsVal ds) = ds := by
  intro ds
  induction ds using List.reverseRecOn with
  | nil => intro h; exact absurd rfl h.1
  | append_singleton es c ih =>
    intro h
    obtain ⟨-, hdig, hhd⟩ := h
    have hc : c.isDigit = true := hdig c (by simp)
    obtain ⟨hc1, hc2⟩ := isDigit_bounds hc
    rcases hes : es with _ | ⟨e, t⟩
    · simp only [List.nil_append]
      have hv : charsVal [c] = c.toNat - 48 := by simp [charsVal]
      have hlt : c.toNat - 48 < 10 := by omega
      rw [hv, natToChars, natToCharsGo, if_pos hlt, digitChar_round hc]
    · rw [← hes]
      have hesne : es ≠ [] := by rw [hes]; simp
      have hesdig : ∀ x ∈ es, x.isDigit = true := fun x hx => hdig x (List.mem_append.mpr (Or.inl hx))
      have heshd : es.head? ≠ some '0' := by
        intro hz
        have hheq : (es ++ [c]).head? = some '0' := by
          rw [hes] at hz ⊢
          simpa using hz
        have := hhd hheq
        rw [hes] at this
        simp at this
      have hcanes : CanonicalDigits es := ⟨hesne, hesdig, fun hz => absurd hz heshd⟩
      have hval : 1 ≤ charsVal es := charsVal_pos hesne hesdig heshd
      have hvc : c.toNat - 48 < 10 := by omega
      have hn : charsVal (es ++ [c]) = charsVal es * 10 + (c.toNat - 48) := charsVal_append es c
      have hge : 10 ≤ charsVal (es ++ [c]) := by omega
      have hdiv : charsVal (es ++ [c]) / 10 = charsVal es := by omega
      have hmod : charsVal (es ++ [c]) % 10 = c.toNat - 48 := by omega
      rw [natToChars, natToCharsGo]
      simp only [if_neg (by omega : ¬ charsVal (es ++ [c]) < 10)]
      rw [hdiv, hmod, digitChar_round hc]
      have hfuel : charsVal es < charsVal (es ++ [c]) := by omega
      rw [natToCharsGo_fuel (charsVal es) (charsVal (es ++ [c])) (charsVal es + 1) hfuel (Nat.lt_succ_self _)]
      rw [← natToChars, ih hcanes]

lemma takeWhile_all {p : Char → Bool} : ∀ l : List Char, (∀ c ∈ l, p c = true) → l.takeWhile p = l := by
  intro l
  induction l with
  | nil => intro _; rfl
  | cons c t ih =>
    intro h
    rw [List.takeWhile_cons, if_pos (h c (by simp))]
    rw [ih (fun x hx => h x (by simp [hx]))]

lemma jsParseInt_digits {ds : List Char} (hne : ds ≠ [])
    (hdig : ∀ c ∈ ds, c.isDigit = true) : jsParseInt ds = some ((charsVal ds : Int)) := by
  rcases ds with _ | ⟨c, t⟩
  · exact absurd rfl hne
  · have hc : c.isDigit = true := hdig c (by simp)
    have hdw : (c :: t).dropWhile Char.isWhitespace = c :: t := by
      rw [List.dropWhile_cons, if_neg (by simp [isDigit_not_ws hc])]
    have hm : ¬ ((c :: t).head? = some '-') := by
      simp [isDigit_ne_minus hc]
    have hp2 : ¬ ((c :: t).head? = some '-' ∨ (c :: t).head? = some '+') := by
      simp [isDigit_ne_minus hc, isDigit_ne_plus hc]
    have htw : (c :: t).takeWhile Char.isDigit = c :: t := takeWhile_all _ hdig
    simp only [jsParseInt]
    rw [hdw, if_neg hp2, htw, if_neg hm]
    simp

lemma intToString_nonneg {v : Int} (h : 0 ≤ v) : intToString v = natToString v.toNat := by
  rw [intToString, if_neg (by omega)]

instance decCanonicalDigits (ds : List Char) : Decidable (CanonicalDigits ds) := by
  unfold CanonicalDigits
  infer_instance

/-- Modelled from the specification of allocateNextId: the base names that
parse as a plain non-negative integer, rejecting any name with a leading zero
or a non-numeric character. -/
def specCanonicalNat (s : String) : Option Nat :=
  if CanonicalDigits s.data then some (charsVal s.data) else none

lemma specCanonicalNat_natToString (n : Nat) : specCanonicalNat (natToString n) = some n := by
  have hcan : CanonicalDigits (natToString n).data := by
    refine ⟨natToChars_ne_nil n, natToChars_digits n, ?_⟩
    intro hz
    by_cases hn : n = 0
    · subst hn; exact natToChars_zero
    · exact absurd hz (natToChars_head hn)
  rw [specCanonicalNat, if_pos hcan]
  show some (charsVal (natToChars n)) = some n
  rw [charsVal_natToChars]

lemma spec_to_code {s : String} {m : Nat} (h : specCanonicalNat s = some m) :
    parsedCanonicalId s = some (m : Int) := by
  by_cases hcan : CanonicalDigits s.data
  · rw [specCanonicalNat, if_pos hcan] at h
    obtain ⟨hne, hdig, hhd⟩ := hcan
    have hval : charsVal s.data = m := by injection h
    have hp : jsParseInt s.data = some ((charsVal s.data : Int)) := jsParseInt_digits hne hdig
    have hrender : intToString ((charsVal s.data : Nat) : Int) = s := by
      rw [intToString_nonneg (by omega), Int.toNat_ofNat]
      have := natToChars_charsVal s.data ⟨hne, hdig, hhd⟩
      rw [natToString, this]
    simp only [parsedCanonicalId, hp]
    rw [if_pos hrender, hval]
  · rw [specCanonicalNat, if_neg hcan] at h
    exact absurd h (by simp)

lemma code_to_spec {s : String} {v : Int} (h : parsedCanonicalId s = some v) (hv : 0 ≤ v) :
    specCanonicalNat s = some v.toNat := by
  rw [parsedCanonicalId] at h
  rcases hp : jsParseInt s.data with _ | w
  · rw [hp] at h; exact absurd h (by simp)
  · rw [hp] at h
    have h2 : (if intToString w = s then some w else none) = some v := h
    by_cases hrender : intToString w = s
    · rw [if_pos hrender] at h2
      have hw : w = v := by injection h2
      have hs : s = natToString v.toNat := by
        rw [← intToString_nonneg hv, ← hw]
        exact hrender.symm
      rw [hs, specCanonicalNat_natToString]
    · rw [if_neg hrender] at h2
      exact absurd h2 (by simp)

lemma code_none_spec_none {s : String} (h : parsedCanonicalId s = none) :
    specCanonicalNat s = none := by
  rcases hq : specCanonicalNat s with _ | m
  · rfl
  · have := spec_to_code hq
    rw [h] at this
    exact absurd this (by simp)

lemma code_neg_spec_none {s : String} {v : Int} (h : parsedCanonicalId s = some v) (hv : v < 0) :
    specCanonicalNat s = none := by
  rcases hq : specCanonicalNat s with _ | m
  · rfl
  · have := spec_to_code hq
    rw [h] at this
    injection this with this
    omega

/-! ## ID allocation: equivalence with the specified allocator, and the
sequential-create scenario -/

/-- Modelled from the specification of allocateNextId: one greater than the
maximum over the base names of the stored conversation files that parse as a
plain non-negative integer, or the rendering of 1 when none exist. -/
def specNextId (d : Dir) : String :=
  let baseNames := ((dirFiles d).filter (fun f => strEndsWith f ".json")).map stripJsonExt
  natToString ((baseNames.filterMap specCanonicalNat).foldl (fun h n => max h n) 0 + 1)

lemma allocFold_eq : ∀ (files : List String) (b : Nat),
    files.foldl (fun h f => match parsedCanonicalId (stripJsonExt f) with
                            | some v => max h v
                            | none => h) (b : Int)
      = (((files.filterMap (fun f => specCanonicalNat (stripJsonExt f))).foldl
          (fun h n => max h n) b : Nat) : Int) := by
  intro files
  induction files with
  | nil => intro b; simp
  | cons f fs ih =>
    intro b
    rcases hc : parsedCanonicalId (stripJsonExt f) with _ | v
    · have hs := code_none_spec_none hc
      simp only [List.foldl_cons, List.filterMap_cons, hc, hs]
      exact ih b
    · rcases Int.lt_or_le v 0 with hv | hv
      · have hs := code_neg_spec_none hc hv
        simp only [List.foldl_cons, List.filterMap_cons, hc, hs]
        have hmax : max (b : Int) v = (b : Int) := max_eq_left (by omega)
        rw [hmax]
        exact ih b
      · have hs := code_to_spec hc hv
        simp only [List.foldl_cons, List.filterMap_cons, hc, hs]
        have hv2 : ((v.toNat : Nat) : Int) = v := Int.toNat_of_nonneg hv
        have hcast : max (b : Int) v = ((max b v.toNat : Nat) : Int) := by
          rw [Nat.cast_max, hv2]
        rw [hcast]
        exact ih _

lemma intToString_cast_succ (m : Nat) : intToString ((m : Int) + 1) = natToString (m + 1) := by
  have h : ((m : Int) + 1) = ((m + 1 : Nat) : Int) := by push_cast; ring
  rw [h, intToString_nonneg (by positivity), Int.toNat_ofNat]

lemma getNextConversationId_eq_spec (d : Dir) : getNextConversationId d = specNextId d := by
  simp only [getNextConversationId, specNextId]
  rw [List.filterMap_map]
  have h := allocFold_eq ((dirFiles d).filter (fun f => strEndsWith f ".json")) 0
  rw [Nat.cast_zero] at h
  rw [h, intToString_cast_succ]
  rfl

lemma strEndsWith_json (s : String) : strEndsWith (s ++ ".json") ".json" = true := by
  unfold strEndsWith
  rw [String.data_append]
  exact List.isSuffixOf_iff_suffix.mpr (List.suffix_append _ _)

lemma stripJsonExt_append (s : String) : stripJsonExt (s ++ ".json") = s := by
  unfold stripJsonExt
  have hlen : ((s ++ ".json").data).length - 5 = s.data.length := by
    rw [String.data_append]
    simp
  rw [hlen, String.data_append, List.take_append_of_le_length (le_refl _), List.take_length]

lemma convFileName_inj {a b : String} (h : convFileName a = convFileName b) : a = b := by
  calc a = stripJsonExt (convFileName a) := (stripJsonExt_append a).symm
    _ = stripJsonExt (convFileName b) := by rw [h]
    _ = b := stripJsonExt_append b

lemma dirFiles_dirWrite_new {d : Dir} {f : String} {t : FileText} (h : f ∉ dirFiles d) :
    dirFiles (dirWrite d f t) = dirFiles d ++ [f] := by
  induction d with
  | nil => rfl
  | cons e rest ih =>
    obtain ⟨g, u⟩ := e
    have hne : g ≠ f := by
      intro he
      exact h (by simp [dirFiles, he])
    have hnf : f ∉ dirFiles rest := by
      intro hm
      exact h (by simp [dirFiles] at hm ⊢; right; exact hm)
    rw [dirWrite, if_neg hne]
    simp only [dirFiles, List.map_cons] at ih ⊢
    rw [ih hnf]
    simp

lemma fold_max_range : ∀ k : Nat,
    (((List.range k).map (fun i => i + 1)).foldl (fun h n => max h n) 0) = k := by
  intro k
  induction k with
  | zero => rfl
  | succ k ih =>
    rw [List.range_succ, List.map_append, List.foldl_append, ih]
    simp

lemma filterMap_spec_natToString (l : List Nat) :
    ((l.map (fun i => natToString (i + 1))).filterMap specCanonicalNat) = l.map (fun i => i + 1) := by
  induction l with
  | nil => rfl
  | cons i t ih =>
    simp only [List.map_cons, List.filterMap_cons, specCanonicalNat_natToString]
    rw [ih]

lemma alloc_of_files {d : Dir} {k : Nat}
    (h : dirFiles d = (List.range k).map (fun i => convFileName (natToString (i + 1)))) :
    getNextConversationId d = natToString (k + 1) := by
  rw [getNextConversationId_eq_spec, specNextId, h]
  have hfil : (((List.range k).map (fun i => convFileName (natToString (i + 1)))).filter
      (fun f => strEndsWith f ".json"))
      = (List.range k).map (fun i => convFileName (natToString (i + 1))) := by
    rw [List.filter_eq_self]
    intro f hf
    obtain ⟨i, _, rfl⟩ := List.mem_map.mp hf
    exact strEndsWith_json _
  rw [hfil, List.map_map]
  have hcomp : (((List.range k).map (stripJsonExt ∘ fun i => convFileName (natToString (i + 1)))))
      = (List.range k).map (fun i => natToString (i + 1)) := by
    apply List.map_congr_left
    intro i _
    exact stripJsonExt_append _
  rw [hcomp, filterMap_spec_natToString, fold_max_range]

/-- The states and allocated ids after n successive create_conversation calls
starting from the empty store, with arbitrary per-call arguments and
timestamps. -/
def seqStates (cfg : Config) (args : Nat → RawCreateArgs) (nows : Nat → String) :
    Nat → MgrState × List String
  | 0 => (emptyState, [])
  | n + 1 =>
    let p := seqStates cfg args nows n
    match createTool cfg p.1 (args n) (nows n) true with
    | (.ok c, st) => (st, p.2 ++ [c.id])
    | (.error _, st) => (st, p.2)

lemma createTool_true_shape (cfg : Config) (st : MgrState) (raw : RawCreateArgs) (now : String) :
    ∃ c st2, createTool cfg st raw now true = (.ok c, st2) ∧
      c.id = getNextConversationId st.dir ∧
      st2.dir = dirWrite st.dir (convFileName c.id) (some (encodeConversation c)) :=
  ⟨_, _, rfl, rfl, rfl⟩

lemma seq_invariant (cfg : Config) (args : Nat → RawCreateArgs) (nows : Nat → String) :
    ∀ n : Nat,
      dirFiles (seqStates cfg args nows n).1.dir
        = (List.range n).map (fun i => convFileName (natToString (i + 1))) ∧
      (seqStates cfg args nows n).2 = (List.range n).map (fun i => natToString (i + 1)) := by
  intro n
  induction n with
  | zero => exact ⟨rfl, rfl⟩
  | succ n ih =>
    obtain ⟨hdir, hids⟩ := ih
    obtain ⟨c, st2, heq, hid, hdir2⟩ :=
      createTool_true_shape cfg (seqStates cfg args nows n).1 (args n) (nows n)
    have halloc : c.id = natToString (n + 1) := by
      rw [hid]
      exact alloc_of_files hdir
    have hfresh : convFileName c.id ∉ dirFiles (seqStates cfg args nows n).1.dir := by
      rw [hdir, halloc]
      intro hmem
      obtain ⟨i, hi, he⟩ := List.mem_map.mp hmem
      have := natToString_inj (convFileName_inj he)
      have : i < n := List.mem_range.mp hi
      omega
    simp only [seqStates, heq]
    constructor
    · rw [hdir2, dirFiles_dirWrite_new hfresh, hdir, halloc, List.range_succ, List.map_append]
      simp
    · rw [hids, halloc, List.range_succ, List.map_append]
      simp

/-! ## Round trip of the conversation serialization -/

lemma decodeRole_encodeRole (r : Role) : decodeRole (encodeRole r) = some r := by
  cases r <;> rfl

lemma decodeMessage_encodeMessage (m : Message) : decodeMessage (encodeMessage m) = some m := by
  obtain ⟨r, ct⟩ := m
  cases r <;> rfl

lemma decodeMsgList_enc (l : List Message) : decodeMsgList (l.map encodeMessage) = some l := by
  induction l with
  | nil => rfl
  | cons m t ih => simp [decodeMsgList, decodeMessage_encodeMessage, ih]

lemma decodeParams_enc (p : Params) : decodeParams (encodeParams p) = some p := by
  rfl

lemma decodeConversation_enc (c : Conversation) : decodeConversation (encodeConversation c) = some c := by
  obtain ⟨id, model, ca, ua, ps, ms, md⟩ := c
  cases md with
  | none =>
    simp [encodeConversation, decodeConversation, jLookup, fieldGet,
      decodeParams_enc, decodeMessages, decodeMsgList_enc, Json.asStr, Json.asNum]
  | some m =>
    simp [encodeConversation, decodeConversation, jLookup, fieldGet,
      decodeParams_enc, decodeMessages, decodeMsgList_enc, Json.asStr, Json.asNum]

/-! ## Elementary facts about the directory, the cache and the store -/

lemma dirLookup_write_self (d : Dir) (f : String) (t : FileText) :
    dirLookup (dirWrite d f t) f = some t := by
  induction d with
  | nil => simp [dirWrite, dirLookup]
  | cons e rest ih =>
    obtain ⟨g, u⟩ := e
    by_cases hg : g = f
    · rw [dirWrite, if_pos hg, dirLookup, if_pos rfl]
    · rw [dirWrite, if_neg hg, dirLookup, if_neg hg]
      exact ih

lemma dirLookup_write_ne {g f : String} (d : Dir) (t : FileText) (h : g ≠ f) :
    dirLookup (dirWrite d f t) g = dirLookup d g := by
  induction d with
  | nil =>
    have hne : ¬ f = g := fun he => h he.symm
    simp [dirWrite, dirLookup, hne]
  | cons e rest ih =>
    obtain ⟨k, u⟩ := e
    by_cases hk : k = f
    · rw [dirWrite, if_pos hk, dirLookup, if_neg (fun he : f = g => h he.symm),
        dirLookup, if_neg (fun he : k = g => h (he.symm.trans hk))]
    · rw [dirWrite, if_neg hk]
      by_cases hkg : k = g
      · rw [dirLookup, if_pos hkg, dirLookup, if_pos hkg]
      · rw [dirLookup, if_neg hkg, dirLookup, if_neg hkg]
        exact ih

lemma read_write_self (d : Dir) (c : Conversation) :
    readConversation (writeConversation d c) c.id = .ok c := by
  unfold readConversation writeConversation
  rw [dirLookup_write_self]
  simp [decodeConversation_enc]

lemma read_write_ne {id : String} (d : Dir) (c : Conversation) (h : id ≠ c.id) :
    readConversation (writeConversation d c) id = readConversation d id := by
  unfold readConversation writeConversation
  rw [dirLookup_write_ne _ _ (fun he => h (convFileName_inj he))]

lemma readConversation_error_kind {d : Dir} {id : String} {e : Err}
    (h : readConversation d id = .error e) : e = .storage := by
  unfold readConversation at h
  rcases hL : dirLookup d (convFileName id) with _ | t
  · simp only [hL, Except.error.injEq] at h
    exact h.symm
  · rcases t with _ | j
    · simp only [hL, Except.error.injEq] at h
      exact h.symm
    · rcases hD : decodeConversation j with _ | c
      · simp only [hL, hD, Except.error.injEq] at h
        exact h.symm
      · simp only [hL, hD] at h
        exact absurd h (by simp)

lemma cacheGet_set_self (cc : Cache) (id : String) (c : Conversation) :
    cacheGet (cacheSet cc id c) id = some c := by
  induction cc with
  | nil => simp [cacheSet, cacheGet]
  | cons e rest ih =>
    obtain ⟨k, u⟩ := e
    by_cases hk : k = id
    · rw [cacheSet, if_pos hk, cacheGet, if_pos rfl]
    · rw [cacheSet, if_neg hk, cacheGet, if_neg hk]
      exact ih

lemma cacheGet_set_ne {id2 id : String} (cc : Cache) (c : Conversation) (h : id2 ≠ id) :
    cacheGet (cacheSet cc id c) id2 = cacheGet cc id2 := by
  induction cc with
  | nil =>
    have hne : ¬ id = id2 := fun he => h he.symm
    simp [cacheSet, cacheGet, hne]
  | cons e rest ih =>
    obtain ⟨k, u⟩ := e
    by_cases hk : k = id
    · rw [cacheSet, if_pos hk, cacheGet, if_neg (fun he : id = id2 => h he.symm),
        cacheGet, if_neg (fun he : k = id2 => h (he.symm.trans hk))]
    · rw [cacheSet, if_neg hk]
      by_cases hkg : k = id2
      · rw [cacheGet, if_pos hkg, cacheGet, if_pos hkg]
      · rw [cacheGet, if_neg hkg, cacheGet, if_neg hkg]
        exact ih

/-! ## Case analysis helpers for the manager operations -/

/-- The record a getConversation call on this state returns, if any. -/
def loadedConv (st : MgrState) (id : String) : Option Conversation :=
  match cacheGet st.cache id with
  | some c => some c
  | none => (readConversation st.dir id).toOption

/-- The in-place mutation addMessage performs on the loaded record. -/
def pushMsg (c : Conversation) (role : Role) (content now : String) : Conversation :=
  { c with messages := c.messages ++ [⟨role, content⟩], updated_at := now }

/-- The conversation records a state holds, in its cache or decodable from
its directory, under any key. -/
def recordsFrom (st : MgrState) (c : Conversation) : Prop :=
  (∃ k, cacheGet st.cache k = some c) ∨ (∃ k, readConversation st.dir k = .ok c)

lemma cacheGet_set_cases {cc : Cache} {id k : String} {c c' : Conversation}
    (h : cacheGet (cacheSet cc id c) k = some c') : c' = c ∨ cacheGet cc k = some c' := by
  by_cases hk : k = id
  · subst hk
    rw [cacheGet_set_self] at h
    exact Or.inl (Option.some.inj h).symm
  · rw [cacheGet_set_ne _ _ hk] at h
    exact Or.inr h

lemma getConversation_cache {st : MgrState} {id : String} {c : Conversation}
    (h : cacheGet st.cache id = some c) : getConversation st id = .ok (c, st) := by
  simp [getConversation, h]

lemma getConversation_disk {st : MgrState} {id : String} {c : Conversation}
    (hc : cacheGet st.cache id = none) (hr : readConversation st.dir id = .ok c) :
    getConversation st id = .ok (c, { st with cache := cacheSet st.cache id c }) := by
  simp [getConversation, hc, hr]

lemma getConversation_fail {st : MgrState} {id : String} {e : Err}
    (hc : cacheGet st.cache id = none) (hr : readConversation st.dir id = .error e) :
    getConversation st id = .error (.notFound id) := by
  simp [getConversation, hc, hr]

lemma getConversation_ok_facts {st : MgrState} {id : String} {c : Conversation} {st1 : MgrState}
    (h : getConversation st id = .ok (c, st1)) :
    st1.dir = st.dir ∧ loadedConv st id = some c ∧ cacheGet st1.cache id = some c ∧
      (∀ c', recordsFrom st1 c' → recordsFrom st c') ∧ recordsFrom st c := by
  unfold getConversation at h
  rcases hc : cacheGet st.cache id with _ | c0
  · rcases hr : readConversation st.dir id with e | c1
    · simp [hc, hr] at h
    · simp only [hc, hr] at h
      obtain ⟨h1, h2⟩ := Prod.mk.injEq .. ▸ (Except.ok.inj h)
      subst h1
      subst h2
      refine ⟨rfl, by simp [loadedConv, hc, hr, Except.toOption], by simp [cacheGet_set_self], ?_,
        Or.inr ⟨id, hr⟩⟩
      intro c' hrec
      rcases hrec with ⟨k, hk⟩ | ⟨k, hk⟩
      · rcases cacheGet_set_cases hk with rfl | hold
        · exact Or.inr ⟨id, hr⟩
        · exact Or.inl ⟨k, hold⟩
      · exact Or.inr ⟨k, hk⟩
  · simp only [hc] at h
    obtain ⟨h1, h2⟩ := Prod.mk.injEq .. ▸ (Except.ok.inj h)
    subst h1
    subst h2
    exact ⟨rfl, by simp [loadedConv, hc], hc, fun c' hr => hr, Or.inl ⟨id, hc⟩⟩

lemma getConversation_error_shape {st : MgrState} {id : String} {e : Err}
    (h : getConversation st id = .error e) : e = .notFound id := by
  unfold getConversation at h
  rcases hc : cacheGet st.cache id with _ | c0
  · rcases hr : readConversation st.dir id with e2 | c1
    · simp only [hc, hr] at h
      exact (Except.error.inj h).symm
    · simp [hc, hr] at h
  · simp [hc] at h

lemma addMessage_fail_get {st : MgrState} {id : String} {r : Role} {ct now : String} {w : Bool}
    {e : Err} (hg : getConversation st id = .error e) :
    addMessage st id r ct now w = (.error e, st) := by
  simp [addMessage, hg]

lemma addMessage_ok_write {st : MgrState} {id : String} {r : Role} {ct now : String}
    {c : Conversation} {st1 : MgrState} (hg : getConversation st id = .ok (c, st1)) :
    addMessage st id r ct now true =
      (.ok (pushMsg c r ct now),
       { cache := cacheSet st1.cache c.id (pushMsg c r ct now),
         dir := writeConversation st1.dir (pushMsg c r ct now) }) := by
  simp [addMessage, hg, updateConversation, pushMsg]

lemma addMessage_ok_nowrite {st : MgrState} {id : String} {r : Role} {ct now : String}
    {c : Conversation} {st1 : MgrState} (hg : getConversation st id = .ok (c, st1)) :
    addMessage st id r ct now false =
      (.error .storage, { cache := cacheSet st1.cache c.id (pushMsg c r ct now), dir := st1.dir }) := by
  simp [addMessage, hg, updateConversation, pushMsg]

lemma records_write {cc : Cache} {d : Dir} {key : String} {c2 c' : Conversation}
    (h : recordsFrom ⟨cacheSet cc key c2, writeConversation d c2⟩ c') :
    c' = c2 ∨ recordsFrom ⟨cc, d⟩ c' := by
  rcases h with ⟨k, hk⟩ | ⟨k, hk⟩
  · rcases cacheGet_set_cases hk with rfl | hold
    · exact Or.inl rfl
    · exact Or.inr (Or.inl ⟨k, hold⟩)
  · by_cases hkc : k = c2.id
    · subst hkc
      rw [read_write_self] at hk
      exact Or.inl (Except.ok.inj hk).symm
    · rw [read_write_ne _ _ hkc] at hk
      exact Or.inr (Or.inr ⟨k, hk⟩)

lemma records_cacheset {cc : Cache} {d : Dir} {key : String} {c2 c' : Conversation}
    (h : recordsFrom ⟨cacheSet cc key c2, d⟩ c') :
    c' = c2 ∨ recordsFrom ⟨cc, d⟩ c' := by
  rcases h with ⟨k, hk⟩ | ⟨k, hk⟩
  · rcases cacheGet_set_cases hk with rfl | hold
    · exact Or.inl rfl
    · exact Or.inr (Or.inl ⟨k, hold⟩)
  · exact Or.inr (Or.inr ⟨k, hk⟩)

/-! ## Observable shape of one chat turn -/

/-- Event kinds, forgetting payloads. -/
inductive EKind : Type where
  | prog : EKind
  | user : EKind
  | remote : EKind
  | assist : EKind
deriving DecidableEq

def ekind : Event → EKind
  | .progress _ => .prog
  | .appendUser _ => .user
  | .remoteCall _ _ _ => .remote
  | .appendAssistant _ => .assist

def ekinds (evs : List Event) : List EKind := evs.map ekind

/-- The progress values reported during a run, in order. -/
def progressVals (evs : List Event) : List Nat :=
  evs.filterMap (fun e => match e with | .progress p => some p | _ => none)

/-- Exhaustive characterization of one execution of the chat tool: the five
control paths of the body, each with its result, final state and event
trace. -/
lemma chatExec_cases (cfg : Config) (env : ChatEnv) (st : MgrState) (id msg : String)
    (raw : Option RawParams) (now : String) :
    (∃ e, getConversation st id = .error e ∧
      chatExec cfg env st id msg raw now = (.error e, st, [.progress 0])) ∨
    (∃ c st1 eA stA, getConversation st id = .ok (c, st1) ∧
      addMessage st1 c.id .user msg now env.userWriteOk = (.error eA, stA) ∧
      chatExec cfg env st id msg raw now = (.error eA, stA, [.progress 0])) ∨
    (∃ c st1 c2 stU recv, getConversation st id = .ok (c, st1) ∧
      addMessage st1 c.id .user msg now env.userWriteOk = (.ok c2, stU) ∧
      env.stream = .failAfter recv ∧
      chatExec cfg env st id msg raw now =
        (.error .remote, stU,
         .progress 0 :: .appendUser msg ::
           .remoteCall c.model c2.messages
             (resolveChatParams (zodParseChatParams cfg raw) c.parameters) ::
           (streamFold recv 30 "").2.2)) ∨
    (∃ c st1 c2 stU chunks eB stB, getConversation st id = .ok (c, st1) ∧
      addMessage st1 c.id .user msg now env.userWriteOk = (.ok c2, stU) ∧
      env.stream = .ok chunks ∧
      addMessage stU c.id .assistant (streamFold chunks 30 "").2.1 now env.assistantWriteOk
        = (.error eB, stB) ∧
      chatExec cfg env st id msg raw now =
        (.error eB, stB,
         .progress 0 :: .appendUser msg ::
           .remoteCall c.model c2.messages
             (resolveChatParams (zodParseChatParams cfg raw) c.parameters) ::
           ((streamFold chunks 30 "").2.2 ++ [.progress 80]))) ∨
    (∃ c st1 c2 stU chunks cB stB, getConversation st id = .ok (c, st1) ∧
      addMessage st1 c.id .user msg now env.userWriteOk = (.ok c2, stU) ∧
      env.stream = .ok chunks ∧
      addMessage stU c.id .assistant (streamFold chunks 30 "").2.1 now env.assistantWriteOk
        = (.ok cB, stB) ∧
      chatExec cfg env st id msg raw now =
        (.ok (streamFold chunks 30 "").2.1, stB,
         .progress 0 :: .appendUser msg ::
           .remoteCall c.model c2.messages
             (resolveChatParams (zodParseChatParams cfg raw) c.parameters) ::
           ((streamFold chunks 30 "").2.2 ++
             [.progress 80, .appendAssistant (streamFold chunks 30 "").2.1, .progress 100]))) := by
  rcases hg : getConversation st id with e | p
  · exact Or.inl ⟨e, rfl, by simp [chatExec, hg]⟩
  · obtain ⟨c, st1⟩ := p
    rcases ha : addMessage st1 c.id .user msg now env.userWriteOk with ⟨ra, stA⟩
    rcases ra with eA | c2
    · exact Or.inr (Or.inl ⟨c, st1, eA, stA, rfl, ha, by simp [chatExec, hg, ha]⟩)
    · rcases hs : env.stream with chunks | recv
      · rcases hb : addMessage stA c.id .assistant (streamFold chunks 30 "").2.1 now
            env.assistantWriteOk with ⟨rb, stB⟩
        rcases rb with eB | cB
        · refine Or.inr (Or.inr (Or.inr (Or.inl
            ⟨c, st1, c2, stA, chunks, eB, stB, rfl, ha, rfl, hb, ?_⟩)))
          simp [chatExec, hg, ha, hs, hb]
        · refine Or.inr (Or.inr (Or.inr (Or.inr
            ⟨c, st1, c2, stA, chunks, cB, stB, rfl, ha, rfl, hb, ?_⟩)))
          simp [chatExec, hg, ha, hs, hb]
      · refine Or.inr (Or.inr (Or.inl ⟨c, st1, c2, stA, recv, rfl, ha, rfl, ?_⟩))
        simp [chatExec, hg, ha, hs]

lemma addMessage_false_not_ok {st : MgrState} {id : String} {r : Role} {ct now : String}
    {c2 : Conversation} {st2 : MgrState}
    (h : addMessage st id r ct now false = (.ok c2, st2)) : False := by
  rcases hg : getConversation st id with e | p
  · rw [addMessage_fail_get hg] at h
    exact absurd (congrArg Prod.fst h) (by simp)
  · obtain ⟨c, st1⟩ := p
    rw [addMessage_ok_nowrite hg] at h
    exact absurd (congrArg Prod.fst h) (by simp)

lemma streamFold_all_prog : ∀ (chunks : List String) (c0 : Nat) (acc : String),
    ∀ e ∈ (streamFold chunks c0 acc).2.2, ekind e = .prog := by
  intro chunks
  induction chunks with
  | nil => intro c0 acc e he; simp [streamFold] at he
  | cons ch rest ih =>
    intro c0 acc e he
    simp only [streamFold] at he
    rcases List.mem_append.mp he with h1 | h2
    · rcases htick : (tickStep c0).2 with _ | p
      · rw [htick] at h1
        simp at h1
      · rw [htick] at h1
        simp at h1
        subst h1
        rfl
    · exact ih _ _ e h2

lemma not_mem_ekinds_of_prog {evs : List Event} (hall : ∀ e ∈ evs, ekind e = .prog)
    {b : EKind} (hb : b ≠ .prog) : b ∉ ekinds evs := by
  intro hm
  obtain ⟨e, he, hek⟩ := List.mem_map.mp hm
  exact hb (hek ▸ hall e he)

/-- Kind b occurs in the trace only strictly after an occurrence of kind a. -/
def Precedes (a b : EKind) (ks : List EKind) : Prop :=
  b ∈ ks → ∃ l1 l2, ks = l1 ++ l2 ∧ a ∈ l1 ∧ b ∉ l1

lemma precedes_of_not_mem {a b : EKind} {ks : List EKind} (h : b ∉ ks) : Precedes a b ks :=
  fun hm => absurd hm h

lemma addMessage_err_records {st : MgrState} {id : String} {r : Role} {ct now : String} {w : Bool}
    {e : Err} {st2 : MgrState} (h : addMessage st id r ct now w = (.error e, st2)) :
    ∀ c', recordsFrom st2 c' →
      recordsFrom st c' ∨ ∃ c0, recordsFrom st c0 ∧ c' = pushMsg c0 r ct now := by
  rcases hg : getConversation st id with e2 | p
  · rw [addMessage_fail_get hg] at h
    have hst : st2 = st := by
      have := congrArg Prod.snd h
      exact this.symm
    subst hst
    exact fun c' hr => Or.inl hr
  · obtain ⟨c, st1⟩ := p
    obtain ⟨hdir, hload, hcache, hrec, hcrec⟩ := getConversation_ok_facts hg
    cases w with
    | true =>
      rw [addMessage_ok_write hg] at h
      exact absurd (congrArg Prod.fst h) (by simp)
    | false =>
      rw [addMessage_ok_nowrite hg] at h
      have hst : st2 = ⟨cacheSet st1.cache c.id (pushMsg c r ct now), st1.dir⟩ := by
        have := congrArg Prod.snd h
        exact this.symm
      subst hst
      intro c' hr
      rcases records_cacheset hr with rfl | hold
      · exact Or.inr ⟨c, hcrec, rfl⟩
      · exact Or.inl (hrec c' hold)

lemma addMessage_ok_records {st : MgrState} {id : String} {r : Role} {ct now : String} {w : Bool}
    {c2 : Conversation} {st2 : MgrState} (h : addMessage st id r ct now w = (.ok c2, st2)) :
    (∃ c0, recordsFrom st c0 ∧ c2 = pushMsg c0 r ct now) ∧
    (∀ c', recordsFrom st2 c' →
      recordsFrom st c' ∨ ∃ c0, recordsFrom st c0 ∧ c' = pushMsg c0 r ct now) := by
  rcases hg : getConversation st id with e2 | p
  · rw [addMessage_fail_get hg] at h
    exact absurd (congrArg Prod.fst h) (by simp)
  · obtain ⟨c, st1⟩ := p
    obtain ⟨hdir, hload, hcache, hrec, hcrec⟩ := getConversation_ok_facts hg
    cases w with
    | false =>
      rw [addMessage_ok_nowrite hg] at h
      exact absurd (congrArg Prod.fst h) (by simp)
    | true =>
      rw [addMessage_ok_write hg] at h
      have hc2 : c2 = pushMsg c r ct now := by
        have := congrArg Prod.fst h
        simpa using this.symm
      have hst : st2 = ⟨cacheSet st1.cache c.id (pushMsg c r ct now),
          writeConversation st1.dir (pushMsg c r ct now)⟩ := by
        have := congrArg Prod.snd h
        exact this.symm
      subst hst
      refine ⟨⟨c, hcrec, hc2⟩, ?_⟩
      intro c' hr
      rcases records_write hr with rfl | hold
      · exact Or.inr ⟨c, hcrec, rfl⟩
      · exact Or.inl (hrec c' hold)

/-- C1.  If the streaming remote call fails, times out or is aborted after any
prefix of content fragments, the turn result is an error, and every
conversation record held by the final state (in cache or on disk, under any
key) is either a record the initial state already held or such a record with
exactly the user message of this turn appended: no assistant message from the turn,
in particular no partially accumulated one, is ever stored. -/
theorem c1_stream_failure_no_partial_append (cfg : Config) (env : ChatEnv) (st : MgrState)
    (id msg : String) (raw : Option RawParams) (now : String) (recv : List String)
    (h : env.stream = .failAfter recv) :
    (∃ e, (chatExec cfg env st id msg raw now).1 = .error e) ∧
    (∀ c', recordsFrom (chatExec cfg env st id msg raw now).2.1 c' →
      recordsFrom st c' ∨
      ∃ c0, recordsFrom st c0 ∧ c' = pushMsg c0 Role.user msg now) := by
  rcases chatExec_cases cfg env st id msg raw now with
    ⟨e, hg, hc⟩ | ⟨c, st1, eA, stA, hg, ha, hc⟩ | ⟨c, st1, c2, stU, recv2, hg, ha, hs, hc⟩ |
    ⟨c, st1, c2, stU, chunks, eB, stB, hg, ha, hs, hb, hc⟩ |
    ⟨c, st1, c2, stU, chunks, cB, stB, hg, ha, hs, hb, hc⟩
  · rw [hc]
    exact ⟨⟨e, rfl⟩, fun c' hr => Or.inl hr⟩
  · rw [hc]
    refine ⟨⟨eA, rfl⟩, ?_⟩
    intro c' hr
    obtain ⟨hdir, hload, hcache, hrec, hcrec⟩ := getConversation_ok_facts hg
    rcases addMessage_err_records ha c' hr with hold | ⟨c0, hc0, hp⟩
    · exact Or.inl (hrec c' hold)
    · exact Or.inr ⟨c0, hrec c0 hc0, hp⟩
  · rw [hc]
    refine ⟨⟨.remote, rfl⟩, ?_⟩
    intro c' hr
    obtain ⟨hdir, hload, hcache, hrec, hcrec⟩ := getConversation_ok_facts hg
    rcases (addMessage_ok_records ha).2 c' hr with hold | ⟨c0, hc0, hp⟩
    · exact Or.inl (hrec c' hold)
    · exact Or.inr ⟨c0, hrec c0 hc0, hp⟩
  · exact absurd (hs.symm.trans h) (by simp)
  · exact absurd (hs.symm.trans h) (by simp)

/-- C3.  Within one chat turn the durable user-message append happens strictly
before the remote streaming call, which happens strictly before the
assistant-message append; and when the user-message append fails (its disk
write does not succeed) the remote call never happens. -/
theorem c3_turn_event_ordering (cfg : Config) (env : ChatEnv) (st : MgrState)
    (id msg : String) (raw : Option RawParams) (now : String) :
    Precedes .user .remote (ekinds (chatExec cfg env st id msg raw now).2.2) ∧
    Precedes .remote .assist (ekinds (chatExec cfg env st id msg raw now).2.2) ∧
    (env.userWriteOk = false →
      EKind.remote ∉ ekinds (chatExec cfg env st id msg raw now).2.2) := by
  rcases chatExec_cases cfg env st id msg raw now with
    ⟨e, hg, hc⟩ | ⟨c, st1, eA, stA, hg, ha, hc⟩ | ⟨c, st1, c2, stU, recv, hg, ha, hs, hc⟩ |
    ⟨c, st1, c2, stU, chunks, eB, stB, hg, ha, hs, hb, hc⟩ |
    ⟨c, st1, c2, stU, chunks, cB, stB, hg, ha, hs, hb, hc⟩
  · rw [hc]
    refine ⟨precedes_of_not_mem (by simp [ekinds, ekind]), precedes_of_not_mem (by simp [ekinds, ekind]), fun _ => by simp [ekinds, ekind]⟩
  · rw [hc]
    refine ⟨precedes_of_not_mem (by simp [ekinds, ekind]), precedes_of_not_mem (by simp [ekinds, ekind]), fun _ => by simp [ekinds, ekind]⟩
  · rw [hc]
    have hticks := streamFold_all_prog recv 30 ""
    refine ⟨?_, ?_, ?_⟩
    · intro _
      exact ⟨[.prog, .user], .remote :: ekinds (streamFold recv 30 "").2.2,
        by simp [ekinds, ekind], by simp, by simp⟩
    · apply precedes_of_not_mem
      simp only [ekinds, List.map_cons, List.mem_cons]
      push_neg
      refine ⟨by simp [ekind], by simp [ekind], by simp [ekind], ?_⟩
      exact fun hm => absurd hm (not_mem_ekinds_of_prog hticks (by simp))
    · intro hw
      have := addMessage_false_not_ok (hw ▸ ha)
      exact this.elim
  · rw [hc]
    have hticks := streamFold_all_prog chunks 30 ""
    refine ⟨?_, ?_, ?_⟩
    · intro _
      exact ⟨[.prog, .user],
        .remote :: ekinds ((streamFold chunks 30 "").2.2 ++ [.progress 80]),
        by simp [ekinds, ekind], by simp, by simp⟩
    · apply precedes_of_not_mem
      simp only [ekinds, List.map_cons, List.mem_cons]
      push_neg
      refine ⟨by simp [ekind], by simp [ekind], by simp [ekind], ?_⟩
      intro hm
      rw [List.map_append] at hm
      rcases List.mem_append.mp hm with hm | hm
      · exact absurd hm (not_mem_ekinds_of_prog hticks (by simp))
      · simp [ekind] at hm
    · intro hw
      have := addMessage_false_not_ok (hw ▸ ha)
      exact this.elim
  · rw [hc]
    have hticks := streamFold_all_prog chunks 30 ""
    refine ⟨?_, ?_, ?_⟩
    · intro _
      exact ⟨[.prog, .user],
        .remote :: ekinds ((streamFold chunks 30 "").2.2 ++
          [.progress 80, .appendAssistant (streamFold chunks 30 "").2.1, .progress 100]),
        by simp [ekinds, ekind], by simp, by simp⟩
    · intro _
      exact ⟨[.prog, .user, .remote],
        ekinds ((streamFold chunks 30 "").2.2 ++
          [.progress 80, .appendAssistant (streamFold chunks 30 "").2.1, .progress 100]),
        by simp [ekinds, ekind], by simp, by simp [ekinds, ekind]⟩
    · intro hw
      have := addMessage_false_not_ok (hw ▸ ha)
      exact this.elim

/-! ## The progress contract -/

/-- The specified report for the k-th stream chunk (k counted from 0), for a
counter that starts at c0: while the counter is under 80 it advances by one,
and the new value is reported when it is under 40 or on every fifth tick. -/
def specTickFn (c0 k : Nat) : Option Nat :=
  if c0 + k < 80 then
    if c0 + k + 1 < 40 ∨ (c0 + k + 1) % 5 = 0 then some (c0 + k + 1) else none
  else none

def specTicksFrom (c0 n : Nat) : List Nat := (List.range n).filterMap (specTickFn c0)

/-- The progress sequence the specification prescribes for a successful turn
whose stream delivered n chunks: 0 on receipt, the coalesced ticks from 30
toward 80, 80 at stream end, 100 after the assistant append. -/
def specProgress (n : Nat) : List Nat := 0 :: (specTicksFrom 30 n ++ [80, 100])

lemma specTicksFrom_ge80 {c0 : Nat} (h : 80 ≤ c0) (n : Nat) : specTicksFrom c0 n = [] := by
  unfold specTicksFrom
  rw [List.filterMap_eq_nil_iff]
  intro k _
  unfold specTickFn
  rw [if_neg (by omega)]

lemma specTickFn_succ (c0 k : Nat) : specTickFn c0 (k + 1) = specTickFn (c0 + 1) k := by
  unfold specTickFn
  rw [show c0 + (k + 1) = c0 + 1 + k by omega]

lemma progressVals_append (a b : List Event) :
    progressVals (a ++ b) = progressVals a ++ progressVals b := by
  unfold progressVals
  rw [List.filterMap_append]

lemma streamFold_progressVals : ∀ (chunks : List String) (c0 : Nat) (acc : String),
    progressVals (streamFold chunks c0 acc).2.2 = specTicksFrom c0 chunks.length := by
  intro chunks
  induction chunks with
  | nil => intro c0 acc; rfl
  | cons ch rest ih =>
    intro c0 acc
    have hshape : specTicksFrom c0 (rest.length + 1)
        = (match specTickFn c0 0 with
           | some p => p :: specTicksFrom (c0 + 1) rest.length
           | none => specTicksFrom (c0 + 1) rest.length) := by
      unfold specTicksFrom
      rw [List.range_succ_eq_map, List.filterMap_cons, List.filterMap_map]
      have : (specTickFn c0 ∘ Nat.succ) = specTickFn (c0 + 1) := by
        funext k
        exact specTickFn_succ c0 k
      rw [this]
      cases specTickFn c0 0 <;> rfl
    by_cases h80 : c0 < 80
    · have htick : tickStep c0 =
          (c0 + 1, if c0 + 1 < 40 || (c0 + 1) % 5 == 0 then some (c0 + 1) else none) := by
        simp [tickStep, h80]
      by_cases hrep : c0 + 1 < 40 ∨ (c0 + 1) % 5 = 0
      · have hb : (c0 + 1 < 40 || (c0 + 1) % 5 == 0) = true := by
          rcases hrep with h | h
          · simp [h]
          · simp [h]
        have hfn : specTickFn c0 0 = some (c0 + 1) := by
          unfold specTickFn
          rw [if_pos (by omega), if_pos (by simpa using hrep)]
        simp only [streamFold, htick, hb, if_true, List.length_cons, hshape, hfn]
        rw [progressVals_append, ih]
        rfl
      · have hb : (c0 + 1 < 40 || (c0 + 1) % 5 == 0) = false := by
          push_neg at hrep
          simp [hrep.1, hrep.2]
        have hfn : specTickFn c0 0 = none := by
          unfold specTickFn
          rw [if_pos (by omega), if_neg (by simpa using hrep)]
        simp only [streamFold, htick, hb, if_false, List.length_cons, hshape, hfn]
        rw [progressVals_append, ih]
        rfl
    · have htick : tickStep c0 = (c0, none) := by
        simp [tickStep, h80]
      simp only [streamFold, htick, List.length_cons]
      rw [progressVals_append, ih]
      rw [specTicksFrom_ge80 (by omega), specTicksFrom_ge80 (by omega)]
      rfl

lemma streamFold_vals_le : ∀ (chunks : List String) (c0 : Nat) (acc : String) (p : Nat),
    p ∈ progressVals (streamFold chunks c0 acc).2.2 → p ≤ 80 := by
  intro chunks
  induction chunks with
  | nil => intro c0 acc p hp; simp [streamFold, progressVals] at hp
  | cons ch rest ih =>
    intro c0 acc p hp
    simp only [streamFold] at hp
    rw [progressVals_append] at hp
    rcases List.mem_append.mp hp with h1 | h2
    · by_cases h80 : c0 < 80
      · have htick : tickStep c0 =
            (c0 + 1, if c0 + 1 < 40 || (c0 + 1) % 5 == 0 then some (c0 + 1) else none) := by
          simp [tickStep, h80]
        rw [htick] at h1
        by_cases hb : (c0 + 1 < 40 || (c0 + 1) % 5 == 0) = true
        · rw [hb] at h1
          simp [progressVals] at h1
          omega
        · rw [Bool.not_eq_true] at hb
          rw [hb] at h1
          simp [progressVals] at h1
      · have htick : tickStep c0 = (c0, none) := by simp [tickStep, h80]
        rw [htick] at h1
        simp [progressVals] at h1
    · exact ih _ _ p h2

lemma progressVals_nil : progressVals [] = [] := rfl

lemma progressVals_cons_progress (p : Nat) (t : List Event) :
    progressVals (.progress p :: t) = p :: progressVals t := rfl

lemma progressVals_cons_user (m : String) (t : List Event) :
    progressVals (.appendUser m :: t) = progressVals t := rfl

lemma progressVals_cons_remote (md : String) (ms : List Message) (ps : Params) (t : List Event) :
    progressVals (.remoteCall md ms ps :: t) = progressVals t := rfl

lemma progressVals_cons_assist (m : String) (t : List Event) :
    progressVals (.appendAssistant m :: t) = progressVals t := rfl

lemma loadedConv_some {st : MgrState} {id : String} {c : Conversation}
    (h : loadedConv st id = some c) :
    ∃ st1, getConversation st id = .ok (c, st1) ∧ cacheGet st1.cache id = some c := by
  unfold loadedConv at h
  rcases hc : cacheGet st.cache id with _ | c0
  · rw [hc] at h
    rcases hr : readConversation st.dir id with e | c1
    · rw [hr] at h
      simp [Except.toOption] at h
    · rw [hr] at h
      simp [Except.toOption] at h
      subst h
      exact ⟨_, getConversation_disk hc hr, by simp [cacheGet_set_self]⟩
  · rw [hc] at h
    simp at h
    subst h
    exact ⟨st, getConversation_cache hc, hc⟩

/-- C9.  The progress contract of the chat tool: a turn that loads its
conversation (whose record carries the requested id), appends both messages
durably and streams n chunks reports exactly 0, then the coalesced counter
ticks from 30 toward 80 (every tick under 40, every fifth thereafter), then
80 at stream end, then 100 after the assistant append; and on every execution
whatsoever, no reported value other than the final 100 (which follows the
assistant append) exceeds 80. -/
theorem c9_progress_contract :
    (∀ (cfg : Config) (env : ChatEnv) (st : MgrState) (id msg : String)
        (raw : Option RawParams) (now : String) (chunks : List String) (c : Conversation),
      env.stream = .ok chunks → env.userWriteOk = true → env.assistantWriteOk = true →
      loadedConv st id = some c → c.id = id →
      progressVals (chatExec cfg env st id msg raw now).2.2 = specProgress chunks.length) ∧
    (∀ (cfg : Config) (env : ChatEnv) (st : MgrState) (id msg : String)
        (raw : Option RawParams) (now : String) (p : Nat),
      p ∈ progressVals (chatExec cfg env st id msg raw now).2.2 →
      p ≤ 80 ∨ (p = 100 ∧ EKind.assist ∈ ekinds (chatExec cfg env st id msg raw now).2.2)) := by
  constructor
  · intro cfg env st id msg raw now chunks c hs hu ha hl hid
    obtain ⟨st1, hgc, hcache1⟩ := loadedConv_some hl
    have hg2 : getConversation st1 c.id = .ok (c, st1) := by
      rw [hid]
      exact getConversation_cache hcache1
    have haddU := @addMessage_ok_write st1 c.id .user msg now c st1 hg2
    have hcache2 : cacheGet (cacheSet st1.cache c.id (pushMsg c .user msg now)) c.id
        = some (pushMsg c .user msg now) := cacheGet_set_self _ _ _
    have hg3 : getConversation
        ⟨cacheSet st1.cache c.id (pushMsg c .user msg now),
         writeConversation st1.dir (pushMsg c .user msg now)⟩ c.id
        = .ok (pushMsg c .user msg now, _) := getConversation_cache hcache2
    have haddA := @addMessage_ok_write _ _ .assistant (streamFold chunks 30 "").2.1 now _ _ hg3
    simp only [chatExec, hgc, hu, ha, hs, haddU, haddA]
    simp only [progressVals_append, progressVals_cons_progress, progressVals_cons_user,
      progressVals_cons_remote, progressVals_cons_assist, progressVals_nil,
      streamFold_progressVals, specProgress]
    simp
  · intro cfg env st id msg raw now p hp
    rcases chatExec_cases cfg env st id msg raw now with
      ⟨e, hg, hc⟩ | ⟨c, st1, eA, stA, hg, ha, hc⟩ | ⟨c, st1, c2, stU, recv, hg, ha, hs, hc⟩ |
      ⟨c, st1, c2, stU, chunks, eB, stB, hg, ha, hs, hb, hc⟩ |
      ⟨c, st1, c2, stU, chunks, cB, stB, hg, ha, hs, hb, hc⟩
    · rw [hc] at hp
      simp [progressVals] at hp
      omega
    · rw [hc] at hp
      simp [progressVals] at hp
      omega
    · rw [hc] at hp
      simp only [progressVals_cons_progress, progressVals_cons_user,
        progressVals_cons_remote] at hp
      rcases List.mem_cons.mp hp with rfl | hp2
      · exact Or.inl (by omega)
      · exact Or.inl (streamFold_vals_le recv 30 "" p hp2)
    · rw [hc] at hp
      simp only [progressVals_cons_progress, progressVals_cons_user,
        progressVals_cons_remote, progressVals_append] at hp
      rcases List.mem_cons.mp hp with rfl | hp2
      · exact Or.inl (by omega)
      · rcases List.mem_append.mp hp2 with hp3 | hp3
        · exact Or.inl (streamFold_vals_le chunks 30 "" p hp3)
        · simp [progressVals] at hp3
          exact Or.inl (by omega)
    · rw [hc] at hp
      simp only [progressVals_cons_progress, progressVals_cons_user,
        progressVals_cons_remote, progressVals_append] at hp
      rcases List.mem_cons.mp hp with rfl | hp2
      · exact Or.inl (by omega)
      · rcases List.mem_append.mp hp2 with hp3 | hp3
        · exact Or.inl (streamFold_vals_le chunks 30 "" p hp3)
        · simp [progressVals] at hp3
          rcases hp3 with rfl | rfl
          · exact Or.inl (by omega)
          · refine Or.inr ⟨rfl, ?_⟩
            rw [hc]
            simp [ekinds, ekind]

/-! ## The leading-system-message invariant -/

/-- All messages after the first have a non-system role: there is at most one
system message and, if present, it is the leading one. -/
def noLaterSystem (ms : List Message) : Prop := ∀ m ∈ ms.drop 1, m.role ≠ Role.system

/-- Every record the state holds, cached or stored, satisfies the
leading-system-message shape. -/
def StateInv (st : MgrState) : Prop := ∀ c, recordsFrom st c → noLaterSystem c.messages

lemma noLaterSystem_push {ms : List Message} (h : noLaterSystem ms) {r : Role}
    (hr : r ≠ .system) (ct : String) : noLaterSystem (ms ++ [⟨r, ct⟩]) := by
  rcases ms with _ | ⟨a, t⟩
  · intro m hm
    simp at hm
  · intro m hm
    simp only [List.cons_append, List.drop_succ_cons, List.drop_zero] at hm
    rcases List.mem_append.mp hm with h1 | h2
    · exact h m (by simpa using h1)
    · simp at h2
      subst h2
      exact hr

lemma stateInv_empty : StateInv emptyState := by
  intro c hr
  rcases hr with ⟨k, hk⟩ | ⟨k, hk⟩
  · simp [emptyState, cacheGet] at hk
  · simp [emptyState, readConversation, dirLookup] at hk

lemma stateInv_of_sub {stA stB : MgrState}
    (hsub : ∀ c', recordsFrom stB c' → recordsFrom stA c') (h : StateInv stA) : StateInv stB :=
  fun c hc => h c (hsub c hc)

lemma records_inv_step {stA stB : MgrState} {r : Role} {ct now : String} (hr : r ≠ .system)
    (hstep : ∀ c', recordsFrom stB c' →
      recordsFrom stA c' ∨ ∃ c0, recordsFrom stA c0 ∧ c' = pushMsg c0 r ct now)
    (hinv : StateInv stA) : StateInv stB := by
  intro c' hc'
  rcases hstep c' hc' with hold | ⟨c0, hc0, rfl⟩
  · exact hinv c' hold
  · exact noLaterSystem_push (hinv c0 hc0) hr ct

lemma chatExec_inv {cfg : Config} {env : ChatEnv} {st : MgrState} {id msg : String}
    {raw : Option RawParams} {now : String} (h : StateInv st) :
    StateInv (chatExec cfg env st id msg raw now).2.1 := by
  rcases chatExec_cases cfg env st id msg raw now with
    ⟨e, hg, hc⟩ | ⟨c, st1, eA, stA, hg, ha, hc⟩ | ⟨c, st1, c2, stU, recv, hg, ha, hs, hc⟩ |
    ⟨c, st1, c2, stU, chunks, eB, stB, hg, ha, hs, hb, hc⟩ |
    ⟨c, st1, c2, stU, chunks, cB, stB, hg, ha, hs, hb, hc⟩
  · rw [hc]
    exact h
  · rw [hc]
    have h1 : StateInv st1 := stateInv_of_sub (getConversation_ok_facts hg).2.2.2.1 h
    exact records_inv_step (by simp) (addMessage_err_records ha) h1
  · rw [hc]
    have h1 : StateInv st1 := stateInv_of_sub (getConversation_ok_facts hg).2.2.2.1 h
    exact records_inv_step (by simp) (addMessage_ok_records ha).2 h1
  · rw [hc]
    have h1 : StateInv st1 := stateInv_of_sub (getConversation_ok_facts hg).2.2.2.1 h
    have h2 : StateInv stU := records_inv_step (by simp) (addMessage_ok_records ha).2 h1
    exact records_inv_step (by simp) (addMessage_err_records hb) h2
  · rw [hc]
    have h1 : StateInv st1 := stateInv_of_sub (getConversation_ok_facts hg).2.2.2.1 h
    have h2 : StateInv stU := records_inv_step (by simp) (addMessage_ok_records ha).2 h1
    exact records_inv_step (by simp) (addMessage_ok_records hb).2 h2

/-- The messages a create call seeds: empty for an absent or empty effective
prompt, a single system message otherwise. -/
def seedMessages (osp : Option String) : List Message :=
  match osp with
  | some s => if s = "" then [] else [⟨.system, s⟩]
  | none => []

lemma noLaterSystem_seed (osp : Option String) : noLaterSystem (seedMessages osp) := by
  rcases osp with _ | s
  · intro m hm; simp [seedMessages] at hm
  · by_cases hs : s = ""
    · intro m hm; simp [seedMessages, hs] at hm
    · intro m hm; simp [seedMessages, hs] at hm

/-- The record a createConversation call constructs. -/
def mkCreated (cfg : Config) (st : MgrState) (args : CreateArgs) (now : String) : Conversation :=
  ⟨getNextConversationId st.dir, jsOr args.model cfg.defaultModel, now, now,
   ⟨(args.parameters.bind (·.temperature)).getD (7/10),
    (args.parameters.bind (·.max_tokens)).getD 1000,
    (args.parameters.bind (·.top_p)).getD 1,
    (args.parameters.bind (·.frequency_penalty)).getD 0,
    (args.parameters.bind (·.presence_penalty)).getD 0⟩,
   seedMessages args.system_prompt,
   args.metadata⟩

lemma createTool_state (cfg : Config) (st : MgrState) (raw : RawCreateArgs) (now : String)
    (w : Bool) :
    ∃ cnew : Conversation,
      cnew.messages = seedMessages (some (raw.system_prompt.getD cfg.defaultSystemPrompt)) ∧
      ((createTool cfg st raw now w).2 = ⟨cacheSet st.cache cnew.id cnew, writeConversation st.dir cnew⟩ ∨
       (createTool cfg st raw now w).2 = ⟨cacheSet st.cache cnew.id cnew, st.dir⟩) := by
  refine ⟨mkCreated cfg st
    { zodParseCreate cfg raw with
        model := some (jsOr (zodParseCreate cfg raw).model cfg.defaultModel) } now, rfl, ?_⟩
  cases w
  · exact Or.inr rfl
  · exact Or.inl rfl

lemma createTool_inv {cfg : Config} {st : MgrState} {raw : RawCreateArgs} {now : String}
    {w : Bool} (h : StateInv st) : StateInv (createTool cfg st raw now w).2 := by
  obtain ⟨cnew, hmsg, hst | hst⟩ := createTool_state cfg st raw now w
  · rw [hst]
    intro c' hc'
    rcases records_write hc' with rfl | hold
    · rw [hmsg]
      exact noLaterSystem_seed _
    · exact h c' hold
  · rw [hst]
    intro c' hc'
    rcases records_cacheset hc' with rfl | hold
    · rw [hmsg]
      exact noLaterSystem_seed _
    · exact h c' hold

lemma runOps_inv (cfg : Config) (ops : List Op) : StateInv (runOps cfg ops) := by
  suffices h : ∀ st, StateInv st → StateInv (ops.foldl (runOp cfg) st) from
    h emptyState stateInv_empty
  induction ops with
  | nil => intro st hst; exact hst
  | cons op rest ih =>
    intro st hst
    rcases op with ⟨raw, now, w⟩ | ⟨env, id, msg, raw, now⟩
    · exact ih _ (createTool_inv hst)
    · exact ih _ (chatExec_inv hst)

/-! ## Remaining claims -/

/-- A conversation with stored sampling parameters that differ from every
process default, used to exhibit the parameter-resolution behavior. -/
def c2Conv : Conversation :=
  ⟨"1", "m", "1", "1", ⟨1/5, 123, 1/2, 1, -1⟩, [⟨.system, "S"⟩], none⟩

def c2State : MgrState := ⟨[("1", c2Conv)], []⟩

def c2Env : ChatEnv := ⟨.ok ["Hi"], true, true⟩

/-- C2.  The sampling parameters the remote call carries never fall back to
the conversation-level stored parameters: the chat schema parse substitutes
the process default into every omitted per-turn field, so the or-else
fallback to the conversation parameters in the chatParams object is dead.  In
particular a turn that omits temperature on a conversation that stores
temperature 1/5 sends the process default 7/10, not 1/5. -/
theorem c2_conversation_params_bypassed :
    (∀ (cfg : Config) (raw : Option RawParams) (conv : Params),
      resolveChatParams (zodParseChatParams cfg raw) conv =
        ⟨(raw.getD RawParams.empty).temperature.getD cfg.defaults.temperature,
         (raw.getD RawParams.empty).max_tokens.getD cfg.defaults.max_tokens,
         (raw.getD RawParams.empty).top_p.getD cfg.defaults.top_p,
         (raw.getD RawParams.empty).frequency_penalty.getD cfg.defaults.frequency_penalty,
         (raw.getD RawParams.empty).presence_penalty.getD cfg.defaults.presence_penalty⟩) ∧
    ((chatExec defaultConfig c2Env c2State "1" "hello" (some RawParams.empty) "2").2.2.filterMap
        (fun e => match e with | .remoteCall _ _ ps => some ps | _ => none)
      = [⟨7/10, 50000, 1, 0, 0⟩]) ∧
    c2Conv.parameters.temperature = 1/5 ∧ ((7 : Rat)/10 ≠ 1/5) := by
  refine ⟨fun cfg raw conv => rfl, ?_, rfl, by norm_num⟩
  rfl

/-- C4.  The ID allocator agrees with its specification (one plus the maximum
base name of a stored .json file that is a canonical non-negative decimal,
leading zeros and non-numeric suffixes rejected), returns the rendering of 1
on an empty store, and a sequence of N successful creates on an empty store
allocates exactly the decimal renderings of 1 through N, in order. -/
theorem c4_sequential_id_allocation :
    (∀ d : Dir, getNextConversationId d = specNextId d) ∧
    getNextConversationId [] = "1" ∧
    (∀ (cfg : Config) (args : Nat → RawCreateArgs) (nows : Nat → String) (N : Nat),
      (seqStates cfg args nows N).2 = (List.range N).map (fun i => natToString (i + 1))) := by
  refine ⟨getNextConversationId_eq_spec, rfl, ?_⟩
  intro cfg args nows N
  exact (seq_invariant cfg args nows N).2

/-- C5 counterexample: the store-level read of an absent conversation fails
with the storage error kind, not with the not-found kind the claim names. -/
theorem c5_counterexample :
    readConversation [] "1" = .error .storage ∧ Err.storage ≠ Err.notFound "1" :=
  ⟨rfl, by simp⟩

/-- C5 (amended).  The store-level read fails exactly when the file is absent
or malformed, and then always with the storage error kind; the manager-level
get returns the cached copy when present, otherwise reads through the store
and populates the cache, and fails with the not-found error carrying the
requested id exactly when the cache misses and the store read fails. -/
theorem c5_read_and_get_contract :
    (∀ (d : Dir) (id : String),
      (dirLookup d (convFileName id) = none → readConversation d id = .error .storage) ∧
      (dirLookup d (convFileName id) = some none → readConversation d id = .error .storage) ∧
      (∀ j, dirLookup d (convFileName id) = some (some j) →
        (decodeConversation j = none → readConversation d id = .error .storage) ∧
        (∀ c, decodeConversation j = some c → readConversation d id = .ok c)) ∧
      (∀ e, readConversation d id = .error e → e = .storage)) ∧
    (∀ (st : MgrState) (id : String),
      (∀ c, cacheGet st.cache id = some c → getConversation st id = .ok (c, st)) ∧
      (cacheGet st.cache id = none →
        (∀ c, readConversation st.dir id = .ok c →
          getConversation st id = .ok (c, { st with cache := cacheSet st.cache id c })) ∧
        (∀ e, readConversation st.dir id = .error e →
          getConversation st id = .error (.notFound id)))) := by
  constructor
  · intro d id
    refine ⟨fun h => by simp [readConversation, h], fun h => by simp [readConversation, h],
      fun j hj => ⟨fun hd => by simp [readConversation, hj, hd],
        fun c hd => by simp [readConversation, hj, hd]⟩,
      fun e he => readConversation_error_kind he⟩
  · intro st id
    refine ⟨fun c hc => getConversation_cache hc, fun hnone => ⟨?_, ?_⟩⟩
    · intro c hr
      exact getConversation_disk hnone hr
    · intro e hr
      exact getConversation_fail hnone hr

def c6Conv (i d : String) : Conversation := ⟨i, "m", d, d, ⟨1, 1, 1, 0, 0⟩, [], none⟩

def c6Meta (i d : String) : ConversationMetadata := ⟨i, "m", d, d, 0, none⟩

def c6State3 : MgrState :=
  ⟨[], writeConversation (writeConversation (writeConversation []
    (c6Conv "1" "1")) (c6Conv "2" "2")) (c6Conv "3" "3")⟩

def c6State5 : MgrState :=
  ⟨[], writeConversation (writeConversation (writeConversation (writeConversation
    (writeConversation [] (c6Conv "1" "1")) (c6Conv "2" "2")) (c6Conv "3" "3"))
    (c6Conv "4" "4")) (c6Conv "5" "5")⟩

/-- C6 counterexample: with conversations created on days 1, 2 and 3, the
filter after day 1 and before day 3 returns all three conversations, because
both date bounds are inclusive; the day-1 conversation in particular is
returned, contradicting the claim that only the day-2 one is. -/
theorem c6_counterexample :
    listConversationsTool c6State3 (some ⟨none, some "1", some "3"⟩) none none
      = [c6Meta "3" "3", c6Meta "2" "2", c6Meta "1" "1"] ∧
    c6Meta "1" "1" ∈ listConversationsTool c6State3 (some ⟨none, some "1", some "3"⟩) none none := by
  have h : listConversationsTool c6State3 (some ⟨none, some "1", some "3"⟩) none none
      = [c6Meta "3" "3", c6Meta "2" "2", c6Meta "1" "1"] := rfl
  refine ⟨h, ?_⟩
  rw [h]
  exact List.mem_cons_of_mem _ (List.mem_cons_of_mem _ (List.mem_cons_self _ _))

/-- C6 (amended).  The created_after and created_before filters are inclusive
bounds: on conversations created on days 1 through 5, the filter
after day 2 and before day 4 returns exactly the day-2, day-3 and day-4
conversations, newest first. -/
theorem c6_inclusive_date_filter :
    listConversationsTool c6State5 (some ⟨none, some "2", some "4"⟩) none none
      = [c6Meta "4" "4", c6Meta "3" "3", c6Meta "2" "2"] := rfl

/-- C7 counterexample: a create_conversation call that supplies no system
prompt still seeds a leading system message, carrying the process default
prompt substituted by the schema parse, so messages are not seeded only when
a prompt was supplied. -/
theorem c7_counterexample :
    ((createTool defaultConfig emptyState ⟨none, none, none, none⟩ "t0" true).1.toOption.map
        (fun c => c.messages))
      = some [Message.mk .system "You are a helpful assistant."] ∧
    some [Message.mk .system "You are a helpful assistant."] ≠ some ([] : List Message) := by
  constructor
  · rfl
  · simp

/-- C7 (amended).  Every state reachable from the empty store through
create_conversation calls and chat turns satisfies the invariant: every
conversation record it holds has at most one system message, which if present
is the leading one; creation seeds a single system message exactly when the
effective system prompt (the supplied one, or the process default substituted
by the schema when none is supplied) is non-empty, and no later operation
inserts, reorders or deletes a system message. -/
theorem c7_leading_system_invariant :
    (∀ (cfg : Config) (ops : List Op), StateInv (runOps cfg ops)) ∧
    (∀ (cfg : Config) (st : MgrState) (args : CreateArgs) (now : String) (w : Bool)
        (c : Conversation) (st2 : MgrState),
      createConversation cfg st args now w = (.ok c, st2) →
      c.messages = seedMessages args.system_prompt) ∧
    (∀ (cfg : Config) (raw : RawCreateArgs),
      (zodParseCreate cfg raw).system_prompt = some (raw.system_prompt.getD cfg.defaultSystemPrompt)) := by
  refine ⟨runOps_inv, ?_, fun cfg raw => rfl⟩
  intro cfg st args now w c st2 h
  cases w
  · have h1 := congrArg Prod.fst h
    have h2 : Except.error (α := Conversation) Err.createErr = Except.ok c := h1
    simp at h2
  · have h1 := congrArg Prod.fst h
    have h2 : Except.ok (mkCreated cfg st args now) = Except.ok c := h1
    have h3 : mkCreated cfg st args now = c := Except.ok.inj h2
    rw [← h3]
    rfl

/-- C8.  Writing any conversation record to the store and reading it back by
its id returns a record field-for-field equal to the written one, through the
full serialization to JSON and the parse back. -/
theorem c8_write_read_round_trip (d : Dir) (c : Conversation) :
    readConversation (writeConversation d c) c.id = .ok c :=
  read_write_self d c

/-- C10.  The delete_conversation tool returns the fixed confirmation string
whatever the manager reports, and the boolean of the manager (true exactly when
the file existed and was removed) is discarded, so the return value of the tool
cannot distinguish success from failure. -/
theorem c10_delete_result_discarded (st : MgrState) (id : String) :
    (deleteTool st id).1 = "Conversation deleted" ∧
    ((deleteConversationMgr st id).1 = true ↔ dirLookup st.dir (convFileName id) ≠ none) := by
  constructor
  · rfl
  · unfold deleteConversationMgr deleteConversationStore
    rcases hL : dirLookup st.dir (convFileName id) with _ | t
    · simp [hL]
    · simp [hL]

/-! ## Concrete instances -/

def wConv : Conversation := ⟨"1", "m", "1", "1", ⟨1, 1, 1, 0, 0⟩, [], none⟩

def wState : MgrState := ⟨[("1", wConv)], []⟩

def wEnv : ChatEnv := ⟨.ok ["He", "llo"], true, true⟩

/-- Witness for C1 at a concrete turn whose stream aborts after one
fragment. -/
theorem c1_witness :
    (∃ e, (chatExec defaultConfig ⟨.failAfter ["He"], true, true⟩ wState "1" "hi" none "2").1
      = .error e) ∧
    (∀ c', recordsFrom
        (chatExec defaultConfig ⟨.failAfter ["He"], true, true⟩ wState "1" "hi" none "2").2.1 c' →
      recordsFrom wState c' ∨
      ∃ c0, recordsFrom wState c0 ∧ c' = pushMsg c0 Role.user "hi" "2") :=
  c1_stream_failure_no_partial_append defaultConfig ⟨.failAfter ["He"], true, true⟩ wState
    "1" "hi" none "2" ["He"] rfl

/-- Witness for C3 at a concrete successful turn. -/
theorem c3_witness :
    Precedes .user .remote (ekinds (chatExec defaultConfig wEnv wState "1" "hi" none "2").2.2) ∧
    Precedes .remote .assist (ekinds (chatExec defaultConfig wEnv wState "1" "hi" none "2").2.2) ∧
    (wEnv.userWriteOk = false →
      EKind.remote ∉ ekinds (chatExec defaultConfig wEnv wState "1" "hi" none "2").2.2) :=
  c3_turn_event_ordering defaultConfig wEnv wState "1" "hi" none "2"

/-- Witness for C5: the manager-level get of a cached conversation. -/
theorem c5_witness : getConversation wState "1" = .ok (wConv, wState) :=
  (c5_read_and_get_contract.2 wState "1").1 wConv rfl

/-- Witness for C7: the state after one create call on the empty store
satisfies the leading-system-message invariant. -/
theorem c7_witness :
    StateInv (runOps defaultConfig [Op.create ⟨none, none, none, none⟩ "t0" true]) :=
  c7_leading_system_invariant.1 defaultConfig [Op.create ⟨none, none, none, none⟩ "t0" true]

/-- Witness for C9: the progress sequence of a concrete successful
two-chunk turn matches the specified sequence. -/
theorem c9_witness :
    progressVals (chatExec defaultConfig wEnv wState "1" "hi" none "2").2.2 = specProgress 2 :=
  c9_progress_contract.1 defaultConfig wEnv wState "1" "hi" none "2" ["He", "llo"] wConv
    rfl rfl rfl rfl rfl

/-- Witness for C10 at a concrete state with no stored file for the id. -/
theorem c10_witness :
    (deleteTool wState "1").1 = "Conversation deleted" ∧
    ((deleteConversationMgr wState "1").1 = true ↔ dirLookup wState.dir (convFileName "1") ≠ none) :=
  c10_delete_result_discarded wState "1"

end Mca
